import Mathlib

/-!
Verification of the evaluation core of the resin Scheme interpreter.

The definitions below are a shallow embedding of `src/builtin.rs` (the
builtin native procedures, special forms and the `syntax-rules` macro
engine).  Supporting types that live in source files not present in the
repository snapshot (`datum.rs`, `environment.rs`, `vm.rs`, `macros.rs`)
are modelled from the design document, and each such definition carries a
doc comment saying so.

Modelling conventions:
  * `Datum` variants that are reference-shared in the source
    (`Vector`, `Procedure`, `SyntaxRule`, `Ext` hold `Rc` values) carry a
    `Nat` reference id standing for the allocation address; `Pair` and
    `String` are exclusively owned in the source (`Box` / owned string),
    so two argument datums of those variants are never the same object.
  * 64-bit signed integers are modelled as `Int`.  The design document
    explicitly leaves arithmetic overflow unspecified ("wrapping in the
    reference"), and no claim below exercises overflow, so the embedding
    uses exact integer arithmetic.
  * Rust `Result<T, RuntimeError>` becomes `Except RuntimeError T`; the
    `runtime_error!` messages keep the fixed part of the format string.
  * The argument-unwrapping helpers from the missing `macros.rs`
    (`expect_args!`, `try_unwrap_arg!`) are modelled from the spec's error
    taxonomy: wrong arity returns an arity error, a wrong variant returns
    a type error, both as `Except.error`.
  * Scheme strings are modelled as `String` (a sequence of characters);
    where the source indexes by bytes (`substring`), lengths and offsets
    are computed over the UTF-8 widths of the characters, and a byte
    slice whose offset falls inside a multi-byte character models the
    Rust slice panic as `none`.
-/

namespace Resin

/-- The three sub-variants of `Procedure` (spec section 3). -/
inductive ProcKind where
  | native
  | specialForm
  | scheme
deriving DecidableEq, Repr

/-- Modelled from the spec: the `Datum` universal value type of `datum.rs`
(not under `src/`).  Reference-shared variants carry a reference id in
place of the `Rc` address; the payloads of `Procedure`, `SyntaxRule` and
`Ext` are irrelevant to the claims and are elided. -/
inductive Datum where
  | Boolean (b : Bool)
  | Number (n : Int)
  | Character (c : Char)
  | Symbol (s : String)
  | String (s : String)
  | EmptyList
  | Pair (car cdr : Datum)
  | Vector (ref : Nat)
  | Procedure (kind : ProcKind) (ref : Nat)
  | SyntaxRule (ref : Nat)
  | Ext (ref : Nat)
deriving DecidableEq, Repr

instance : Inhabited Datum := ⟨Datum.EmptyList⟩

/-- Errors are surfaced uniformly as `RuntimeError(message)` (spec section 7). -/
abbrev RuntimeError := String

deriving instance DecidableEq for Except

/-- Modelled from the spec: `Datum::list`, building a proper list. -/
def Datum.list (l : List Datum) : Datum := l.foldr Datum.Pair Datum.EmptyList

/-- Modelled from the spec: `Datum::improper_list`, right-nesting a
nonempty vector of datums with the last element as the terminator (this is
how `special_form_lambda` recovers the rest parameter from an improper
formals list). -/
def Datum.improper_list : List Datum → Datum
  | [] => Datum.EmptyList
  | [d] => d
  | d :: rest => Datum.Pair d (Datum.improper_list rest)

/-- Modelled from the spec: `Datum::as_vec` — traverse `cdr`s collecting
elements; the second component is `true` iff the traversal ends in
`EmptyList` (spec section 3 invariants).  A non-list terminator is kept as
the final element, matching `special_form_lambda`'s recovery of the rest
parameter. -/
def Datum.as_vec : Datum → List Datum × Bool
  | .Pair car cdr => let (v, proper) := Datum.as_vec cdr; (car :: v, proper)
  | .EmptyList => ([], true)
  | d => ([d], false)

/-- Modelled from the spec: `Datum::to_vec` — the elements of a proper
list, or a type error for anything else (this is what makes `length`
reject improper lists). -/
def Datum.to_vec (d : Datum) : Except RuntimeError (List Datum) :=
  match Datum.as_vec d with
  | (v, true) => .ok v
  | (_, false) => .error "Expected a list"

/-- Modelled from the spec: `Datum::reverse`, a structural helper
reversing the element sequence of a list. -/
def Datum.reverse (d : Datum) : Datum := Datum.list (Datum.as_vec d).1.reverse

/-- Modelled from the spec: reference identity ("same object") of two
datums.  `Vector`, `Procedure`, `SyntaxRule` and `Ext` are
reference-shared, so identity is equality of the reference ids (for
procedures, of the same sub-variant).  `Pair` and `String` are exclusively
owned, so two argument datums are never the same object; atoms are plain
values with no identity. -/
def sameObject : Datum → Datum → Bool
  | .Vector r1, .Vector r2 => r1 == r2
  | .Procedure k1 r1, .Procedure k2 r2 => k1 == k2 && r1 == r2
  | .SyntaxRule r1, .SyntaxRule r2 => r1 == r2
  | .Ext r1, .Ext r2 => r1 == r2
  | _, _ => false

/-! ## Equality natives (`builtin.rs` lines 862-901) -/

/-- The variant dispatch of `native_eqv_p`: content equality for booleans,
symbols, numbers, characters and the empty list; pointer equality per
sub-variant for procedures; pointer equality for vectors; `false` for two
pairs and for two strings; every other combination (including two `Ext`
values) falls to the catch-all arm and is `false`. -/
def eqvBool : Datum → Datum → Bool
  | .Boolean b1, .Boolean b2 => b1 == b2
  | .Symbol s1, .Symbol s2 => s1 == s2
  | .Number n1, .Number n2 => n1 == n2
  | .Character c1, .Character c2 => c1 == c2
  | .EmptyList, .EmptyList => true
  | .Procedure k1 r1, .Procedure k2 r2 => k1 == k2 && r1 == r2
  | .Vector r1, .Vector r2 => r1 == r2
  | .Pair _ _, .Pair _ _ => false
  | .String _, .String _ => false
  | _, _ => false

/-- `native_eqv_p` (also bound as `eq?`): expects exactly two arguments
and returns a boolean per `eqvBool`. -/
def native_eqv_p (args : List Datum) : Except RuntimeError Datum :=
  match args with
  | [a, b] => .ok (.Boolean (eqvBool a b))
  | _ => .error "Expected 2 args"

/-! ## Arithmetic natives (`builtin.rs` lines 716-798) -/

/-- The accumulation loop of `native_add`: `sum += try_unwrap_arg!(*a => i64)`. -/
def sumLoop : List Datum → Int → Except RuntimeError Int
  | [], acc => .ok acc
  | .Number n :: rest, acc => sumLoop rest (acc + n)
  | _ :: _, _ => .error "Expected number"

/-- `native_add`: sum of the numeric arguments starting from 0; a
non-number argument is a type error. -/
def native_add (args : List Datum) : Except RuntimeError Datum :=
  (sumLoop args 0).map Datum.Number

/-- The accumulation loop of `native_multiply`. -/
def productLoop : List Datum → Int → Except RuntimeError Int
  | [], acc => .ok acc
  | .Number n :: rest, acc => productLoop rest (acc * n)
  | _ :: _, _ => .error "Expected number"

/-- `native_multiply`: product of the numeric arguments starting from 1. -/
def native_multiply (args : List Datum) : Except RuntimeError Datum :=
  (productLoop args 1).map Datum.Number

/-- The loop of `native_subtract` after the first argument: subtract each
further numeric argument from the running difference. -/
def diffLoop : List Datum → Int → Except RuntimeError Int
  | [], acc => .ok acc
  | .Number n :: rest, acc => diffLoop rest (acc - n)
  | _ :: _, _ => .error "Expected number"

/-- `native_subtract`: requires at least one argument; with a single
argument the difference (the argument itself) is negated. -/
def native_subtract (args : List Datum) : Except RuntimeError Datum :=
  match args with
  | [] => .error "Expected at least 1 arg"
  | a :: rest =>
    match a with
    | .Number n =>
      (diffLoop rest n).map fun d =>
        Datum.Number (if rest.isEmpty then -d else d)
    | _ => .error "Expected number"

/-- The comparison loop of `native_equals`:
`res = res && (try_unwrap_arg!(*a => i64) == first)`.  Rust's `&&`
short-circuits, so once `res` is false the remaining arguments are not
unwrapped and thus not type-checked. -/
def eqLoop (first : Int) : List Datum → Bool → Except RuntimeError Bool
  | [], res => .ok res
  | a :: rest, res =>
    if res then
      match a with
      | .Number n => eqLoop first rest (n == first)
      | _ => .error "Expected number"
    else eqLoop first rest false

/-- `native_equals` (`=`): `#t` with zero arguments; otherwise the first
argument must be a number and the remaining ones are compared against it
via `eqLoop`. -/
def native_equals (args : List Datum) : Except RuntimeError Datum :=
  match args with
  | [] => .ok (.Boolean true)
  | a :: rest =>
    match a with
    | .Number first => (eqLoop first rest true).map Datum.Boolean
    | _ => .error "Expected number"

/-! ## `append` (`builtin.rs` lines 739-750) -/

/-- The collection loop of `native_append`: every argument but the last
must be a proper list and contributes its elements. -/
def appendCollect : List Datum → Except RuntimeError (List Datum)
  | [] => .ok []
  | a :: rest => do
    let v ← Datum.to_vec a
    let tail ← appendCollect rest
    .ok (v ++ tail)

/-- `native_append`: with zero arguments it returns `EmptyList` before any
other check; otherwise the elements of all leading proper lists followed
by the last argument as the improper-list terminator. -/
def native_append (args : List Datum) : Except RuntimeError Datum :=
  if args.length == 0 then .ok .EmptyList
  else do
    let front ← appendCollect (args.dropLast)
    .ok (Datum.improper_list (front ++ [args.getLast!]))

/-! ## Hash table natives (`builtin.rs` lines 903-937) -/

/-- The shared mutable map held by a hash-table `Ext` cell
(`Rc<RefCell<HashMap<Datum, Datum>>>`), modelled as an association list
with unique keys maintained by `tableInsert`. -/
abbrev Table := List (Datum × Datum)

/-- `HashMap::get` on the table. -/
def tableGet (t : Table) (k : Datum) : Option Datum :=
  (t.find? (fun p => p.1 == k)).map (·.2)

/-- `HashMap::insert` on the table (replacing any binding of the key). -/
def tableInsert (t : Table) (k v : Datum) : Table :=
  (k, v) :: t.filter (fun p => p.1 != k)

/-- The key check shared by `native_hash_ref` and `native_hash_set`: keys
whose variant is `Procedure`, `SyntaxRule` or `Ext` cannot be hashed. -/
def hashableKey : Datum → Bool
  | .Procedure _ _ => false
  | .SyntaxRule _ => false
  | .Ext _ => false
  | _ => true

/-- `native_hash_ref` after unwrapping `args[0]` to the table held by the
hash-table `Ext` cell: an unhashable key returns `Boolean false` (before
any lookup); otherwise the stored value, or `Boolean false` when the key
is absent. -/
def native_hash_ref (t : Table) (k : Datum) : Except RuntimeError Datum :=
  if hashableKey k then
    match tableGet t k with
    | some d => .ok d
    | none => .ok (.Boolean false)
  else .ok (.Boolean false)

/-- `native_hash_set` after unwrapping `args[0]`: an unhashable key is a
type error raised before the table is touched (the returned table is the
input table); otherwise the mapping is stored and the value returned. -/
def native_hash_set (t : Table) (k v : Datum) : Table × Except RuntimeError Datum :=
  if hashableKey k then (tableInsert t k v, .ok v)
  else (t, .error "Hashing not supported")

/-! ## `substring` (`builtin.rs` lines 1058-1072) -/

/-- The `as usize` cast applied to the `i64` index arguments: reduction
modulo `2 ^ 64` (two's-complement reinterpretation). -/
def usizeCast (n : Int) : Nat := (n % (2 ^ 64 : Int)).toNat

/-- Byte count of a Scheme string: the source's `String::len` is the
length of the UTF-8 encoding, the sum of the byte widths of the
characters. -/
def strLen (s : String) : Nat := (s.data.map Char.utf8Size).sum

/-- Dropping `n` bytes from the front of a character sequence: `some` of
the remaining characters when the offset lands on a character boundary
of the UTF-8 encoding, `none` (a Rust byte-slice panic) when it falls
inside a multi-byte character or past the end. -/
def dropBytes : List Char → Nat → Option (List Char)
  | cs, 0 => some cs
  | [], _ + 1 => none
  | c :: cs, n + 1 =>
    if c.utf8Size ≤ n + 1 then dropBytes cs (n + 1 - c.utf8Size) else none

/-- Taking `n` bytes from the front of a character sequence: the covered
characters when the end offset lands on a character boundary, `none`
(panic) otherwise. -/
def takeBytes : List Char → Nat → Option (List Char)
  | _, 0 => some []
  | [], _ + 1 => none
  | c :: cs, n + 1 =>
    if c.utf8Size ≤ n + 1 then
      (takeBytes cs (n + 1 - c.utf8Size)).map (fun ds => c :: ds)
    else none

/-- The slice `&string[start..end]` on byte offsets: defined exactly when
both offsets are character boundaries of the UTF-8 encoding; `none`
models the Rust panic on a non-boundary offset. -/
def strSlice (s : String) (start stop : Nat) : Option String :=
  (dropBytes s.data start).bind (fun rest =>
    (takeBytes rest (stop - start)).map (fun cs => (⟨cs⟩ : String)))

/-- `native_substring`: two or three arguments; `start` (and `end`, when
present) are `i64`s cast to `usize`; `end` defaults to the byte length
of the string; indices out of `0 ≤ start ≤ end ≤ len` are a domain
error; an in-range byte slice panics (`none`) when an offset falls
inside a multi-byte character. -/
def native_substring (args : List Datum) : Option (Except RuntimeError Datum) :=
  match args with
  | [.String s, .Number st] =>
    let start := usizeCast st
    let stop := strLen s
    if stop > strLen s || start > strLen s || start > stop then
      some (.error "Cannot index string")
    else (strSlice s start stop).map (fun r => .ok (.String r))
  | [.String s, .Number st, .Number en] =>
    let start := usizeCast st
    let stop := usizeCast en
    if stop > strLen s || start > strLen s || start > stop then
      some (.error "Cannot index string")
    else (strSlice s start stop).map (fun r => .ok (.String r))
  | [_, _] => some (.error "Expected string and number")
  | [_, _, _] => some (.error "Expected string and number")
  | _ => some (.error "Usage: substring str start end")

/-! ## Environments -/

/-- Modelled from the spec: a single environment frame's name-to-datum
map (`environment.rs` is not under `src/`).  The macro engine only uses
fresh parentless frames (`Environment::new`) and `get` on the caller's
chain; a chain collapses to one map for `get`, so one association list
with unique keys (maintained by `envDefine`) models both uses. -/
abbrev Env := List (String × Datum)

/-- `Environment::get`. -/
def envGet (env : Env) (s : String) : Option Datum :=
  (env.find? (fun p => p.1 == s)).map (·.2)

/-- `Environment::define`: unconditionally bind in the frame. -/
def envDefine (env : Env) (s : String) (d : Datum) : Env :=
  (s, d) :: env.filter (fun p => p.1 != s)

/-- `Environment::contains`. -/
def envContains (env : Env) (s : String) : Bool := (envGet env s).isSome

/-- The key set of a frame, as iterated by `Environment::iter` (a
`HashMap` holds each key once, so duplicates are collapsed). -/
def envKeys (env : Env) : List String := (env.map (·.1)).dedup

/-- `HashSet::insert` on a set of names. -/
def insertStr (s : String) (l : List String) : List String :=
  if s ∈ l then l else s :: l

/-! ## Instructions and the virtual machine -/

/-- The binding kinds of the `Define` instruction (`vm.rs`, spec section 3). -/
inductive DefineType where
  | define
  | set
  | defineSyntax
deriving DecidableEq, Repr

/-- Modelled from the spec: the executor-level instruction set of the
missing `vm.rs` (spec section 3).  The environment slot of `Evaluate` and
`Define` is omitted: every instruction emitted by a single special-form
call carries clones of the same environment, which none of the claims
distinguish. -/
inductive Instruction where
  | PushValue (d : Datum)
  | PopValue
  | Evaluate (isTail : Bool)
  | JumpIfFalse (count : Nat)
  | Return
  | Define (name : String) (kind : DefineType)
  | Apply (isTail : Bool)
deriving DecidableEq, Repr

/-- Only `Boolean(false)` is false (spec section 3 invariants). -/
def isFalsey : Datum → Bool
  | .Boolean false => true
  | _ => false

/-- Self-evaluating datums per the spec's `Evaluate` semantics: everything
except symbols and pairs evaluates to itself. -/
def selfEvaluating : Datum → Bool
  | .Symbol _ => false
  | .Pair _ _ => false
  | _ => true

/-- Modelled from the spec: a single-frame run of the VM loop of the
missing `vm.rs` over an instruction list and a value stack, restricted to
the instructions the claims execute.  `Evaluate` handles self-evaluating
datums (the claims only evaluate literals); `Return` terminates the
current (only) frame, producing the top of the value stack, as does
exhausting the instruction list.  The interpretation of `JumpIfFalse`'s
count is supplied by `skipOfCount`: on a false condition the next
`skipOfCount k` instructions are dropped. -/
def runFrameAux (skipOfCount : Nat → Nat) : Nat → List Instruction → List Datum → Option Datum
  | _, [], vstack => vstack.head?
  | skip + 1, _ :: rest, vstack => runFrameAux skipOfCount skip rest vstack
  | 0, instr :: rest, vstack =>
    match instr with
    | .PushValue d => runFrameAux skipOfCount 0 rest (d :: vstack)
    | .PopValue =>
      match vstack with
      | _ :: vs => runFrameAux skipOfCount 0 rest vs
      | [] => none
    | .Evaluate _ =>
      match vstack with
      | d :: vs => if selfEvaluating d then runFrameAux skipOfCount 0 rest (d :: vs) else none
      | [] => none
    | .JumpIfFalse k =>
      match vstack with
      | d :: vs =>
        if isFalsey d then runFrameAux skipOfCount (skipOfCount k) rest vs
        else runFrameAux skipOfCount 0 rest vs
      | [] => none
    | .Return => vstack.head?
    | .Define _ _ => none
    | .Apply _ => none

/-- Run a frame with no pending skip. -/
def runFrame (skipOfCount : Nat → Nat) (instrs : List Instruction)
    (vstack : List Datum) : Option Datum :=
  runFrameAux skipOfCount 0 instrs vstack

/-- The claim's literal reading of `JumpIfFalse(k)`: pop, and if false
skip the next `k` instructions. -/
def runLiteral : List Instruction → List Datum → Option Datum :=
  runFrame (fun k => k)

/-- The reading reconciled with the spec's worked examples: the count `k`
covers the jump instruction itself, so `k - 1` following instructions are
skipped on a false condition. -/
def runVM : List Instruction → List Datum → Option Datum :=
  runFrame (fun k => k - 1)

/-- `special_form_if` (`builtin.rs` lines 154-178): evaluate the
condition non-tail, `JumpIfFalse(4)`, then push and tail-evaluate the
then-branch followed by `Return`; then the else branch (tail) when
present, else push `Boolean(false)`. -/
def special_form_if (args : List Datum) : Except RuntimeError (List Instruction) :=
  match args with
  | [c, t] =>
    .ok [.PushValue c, .Evaluate false, .JumpIfFalse 4,
         .PushValue t, .Evaluate true, .Return,
         .PushValue (.Boolean false)]
  | [c, t, e] =>
    .ok [.PushValue c, .Evaluate false, .JumpIfFalse 4,
         .PushValue t, .Evaluate true, .Return,
         .PushValue e, .Evaluate true]
  | _ => .error "Expected 2 or 3 args"

/-! ## Pattern verification (`builtin.rs` lines 418-501) -/

/-- The ellipsis-position check of `verify_pattern_helper` on a pair:
when the car is the ellipsis symbol, its cdr must be `EmptyList` and the
pair must not be at the beginning of a list (`list_begin` is false
exactly for cdr positions, so the ellipsis follows a sub-pattern). -/
def ellipsisCheckPattern (car cdr : Datum) (listBegin : Bool) :
    Except RuntimeError Unit :=
  match car with
  | .Symbol s =>
    if s == "..." then
      let listEnd := cdr == Datum.EmptyList
      let followsPattern := !listBegin
      if !listEnd || !followsPattern then
        Except.error "Ellipses can only occur at the end of a list and must follow a pattern"
      else Except.ok ()
    else Except.ok ()
  | _ => Except.ok ()

/-- `verify_pattern_helper`: collect the pattern variables (non-keyword,
non-ellipsis symbols), rejecting duplicates; a pair runs the
ellipsis-position check and then verifies car (at list-begin) and cdr
(not at list-begin). -/
def verify_pattern_helper (pattern : Datum) (keywords : List String)
    (listBegin : Bool) (vars : List String) :
    Except RuntimeError (List String) :=
  match pattern with
  | .Symbol s =>
    if s ∉ keywords && s != "..." then
      if s ∈ vars then .error "Duplicate pattern variables are not allowed"
      else .ok (s :: vars)
    else .ok vars
  | .Pair car cdr => do
    let _ ← ellipsisCheckPattern car cdr listBegin
    let vars1 ← verify_pattern_helper car keywords true vars
    verify_pattern_helper cdr keywords false vars1
  | _ => .ok vars

/-- `verify_pattern`: run the helper from the list-begin position with no
variables collected. -/
def verify_pattern (pattern : Datum) (keywords : List String) :
    Except RuntimeError (List String) :=
  verify_pattern_helper pattern keywords true []

/-- The ellipsis-position check of `verify_template_helper` on a pair:
the ellipsis symbol must not sit at the beginning of a list. -/
def ellipsisCheckTemplate (car : Datum) (listBegin : Bool) :
    Except RuntimeError Unit :=
  match car with
  | .Symbol s =>
    if s == "..." && listBegin then
      Except.error "Ellipses must follow a pattern"
    else Except.ok ()
  | _ => Except.ok ()

/-- `verify_template_helper`: collect every non-ellipsis symbol of the
template; a pair whose car is the ellipsis symbol is rejected when it is
at the beginning of a list. -/
def verify_template_helper (template : Datum) (listBegin : Bool)
    (symbols : List String) : Except RuntimeError (List String) :=
  match template with
  | .Symbol s =>
    if s != "..." then
      .ok (if s ∈ symbols then symbols else s :: symbols)
    else .ok symbols
  | .Pair car cdr => do
    let _ ← ellipsisCheckTemplate car listBegin
    let syms1 ← verify_template_helper car true symbols
    verify_template_helper cdr false syms1
  | _ => .ok symbols

/-- `verify_template`. -/
def verify_template (template : Datum) : Except RuntimeError (List String) :=
  verify_template_helper template true []

/-- The entry loop of the keyword-list parsing: each entry must be a
symbol. -/
def parseKeywordList : List Datum → Except RuntimeError (List String)
  | [] => .ok []
  | d :: rest =>
    match d with
    | .Symbol s => (parseKeywordList rest).map (fun l => s :: l)
    | _ => .error "Usage: syntax-rules"

/-- The keyword-list parsing of `special_form_syntax_rules` (lines
280-290): every entry must be a symbol, and the ellipsis symbol must not
appear among them. -/
def parseKeywords (kwForm : Datum) : Except RuntimeError (List String) := do
  let ds ← Datum.to_vec kwForm
  let kws ← parseKeywordList ds
  if "..." ∈ kws then .error "Ellipses cannot be in the keywords list"
  else .ok kws

/-- The per-rule parsing of `special_form_syntax_rules` (lines 294-307):
a rule is a two-element list of a pattern and a template; the pattern must
be a pair whose car (the macro identifier) is a symbol and is discarded. -/
def parseRule (pt : Datum) : Except RuntimeError (Datum × Datum) := do
  let parts ← Datum.to_vec pt
  match parts with
  | [patternDatum, template] =>
    match patternDatum with
    | .Pair (.Symbol _) cdr => .ok (cdr, template)
    | .Pair _ _ => .error "First element in a pattern must be the macro identifier"
    | _ => .error "Usage: syntax-rules"
  | _ => .error "Usage: syntax-rules"

/-- The definition-time validation performed by
`special_form_syntax_rules` (lines 276-311): parse the keyword list, then
parse and verify each pattern/template rule.  The remainder of the source
function (snapshotting free variables and building the expander closure)
cannot fail, so this prefix decides whether evaluating the `syntax-rules`
form errors. -/
def special_form_syntax_rules_validate (args : List Datum) :
    Except RuntimeError Unit := do
  if args.length < 2 then
    Except.error "Usage: syntax-rules"
  else
    let keywords ← parseKeywords (args.getD 0 .EmptyList)
    (args.drop 1).forM fun pt => do
      let (pattern, template) ← parseRule pt
      let _ ← verify_pattern pattern keywords
      let _ ← verify_template template
      Except.ok ()

/-! ## Pattern matching (`builtin.rs` lines 503-625) -/

/-- The `zero_or_more` test of `match_pattern_helper`: whether the cdr of
a pair pattern starts with the ellipsis symbol. -/
def ellipsisNext : Datum → Bool
  | .Pair (.Symbol s) _ => s == "..."
  | _ => false

/-- `add_empty_matching`: bind every non-keyword symbol of the pattern to
`EmptyList` (used when an ellipsis consumed zero elements). -/
def add_empty_matching (pattern : Datum) (keywords : List String) (env : Env) : Env :=
  match pattern with
  | .Symbol s => if s ∈ keywords then env else envDefine env s .EmptyList
  | .Pair car cdr => add_empty_matching cdr keywords (add_empty_matching car keywords env)
  | _ => env

/-- One merge step of the ellipsis loop: cons the captured value of the
sub-environment onto the accumulated (reversed) capture list of its key
and remember the key for the final fix-up. -/
def mergeStep (subEnv : Env) (acc : Env × List String) (k : String) :
    Env × List String :=
  match envGet subEnv k with
  | some value =>
    let curr := (envGet acc.1 k).getD .EmptyList
    (envDefine acc.1 k (.Pair value curr), insertStr k acc.2)
  | none => acc

/-- The merge fold over a key list. -/
def mergeFold (subEnv : Env) (ks : List String) (env : Env)
    (toRev : List String) : Env × List String :=
  ks.foldl (mergeStep subEnv) (env, toRev)

/-- The merge step of the ellipsis loop: iterate over the bindings of the
fresh sub-environment (`Environment::iter`, each key once). -/
def mergeSub (subEnv : Env) (env : Env) (toRev : List String) : Env × List String :=
  mergeFold subEnv (envKeys subEnv) env toRev

/-- One fix-up step: reverse the accumulated capture list of a variable
(the source unwraps the binding; an unbound variable, which cannot occur,
is left alone). -/
def reverseStep (e : Env) (v : String) : Env :=
  match envGet e v with
  | some d => envDefine e v d.reverse
  | none => e

/-- The final fix-up of the ellipsis loop: reverse the accumulated
capture list of every variable touched by the merge step. -/
def reverseVars (env : Env) (vars : List String) : Env :=
  vars.foldl reverseStep env

mutual

/-- `match_pattern_helper`: keyword symbols must match the identical
symbol; any other symbol pattern is a variable binding the input; vector
patterns are unimplemented in the source (`unimplemented!()`, modelled as
a failure — the theorems below restrict to vector-free patterns);
procedure and syntax-rule patterns never match; a pair whose cdr starts
with the ellipsis symbol enters the greedy ellipsis loop; any other pair
matches car-to-car and cdr-to-cdr; remaining atoms match by equality. -/
def match_pattern_helper (pattern input : Datum) (keywords : List String)
    (env : Env) : Option Env :=
  match pattern with
  | .Symbol s =>
    if s ∈ keywords then
      match input with
      | .Symbol t => if s == t then some env else none
      | _ => none
    else some (envDefine env s input)
  | .Vector _ => none
  | .Procedure _ _ => none
  | .SyntaxRule _ => none
  | .Pair pcar pcdr =>
    if ellipsisNext pcdr then
      matchEllipsis pcar input keywords env false []
    else
      match input with
      | .Pair icar icdr =>
        match match_pattern_helper pcar icar keywords env with
        | some env1 => match_pattern_helper pcdr icdr keywords env1
        | none => none
      | _ => none
  | p => if p == input then some env else none
termination_by sizeOf pattern + sizeOf input

/-- The greedy ellipsis loop of `match_pattern_helper`: consume list
elements of the input one by one, each matched against the sub-pattern
from a fresh environment and merged; a non-list terminator fails; at the
end, if nothing was consumed, bind the sub-pattern's symbols to
`EmptyList`, and reverse the accumulated capture lists. -/
def matchEllipsis (p current : Datum) (keywords : List String) (env : Env)
    (found : Bool) (toRev : List String) : Option Env :=
  match current with
  | .Pair element next =>
    match match_pattern_helper p element keywords [] with
    | none => none
    | some subEnv =>
      let merged := mergeSub subEnv env toRev
      matchEllipsis p next keywords merged.1 true merged.2
  | .EmptyList =>
    let env1 := if found then env else add_empty_matching p keywords env
    some (reverseVars env1 toRev)
  | _ => none
termination_by sizeOf p + sizeOf current

end

/-- `match_pattern`: run the helper in a fresh environment. -/
def match_pattern (pattern input : Datum) (keywords : List String) : Option Env :=
  match_pattern_helper pattern input keywords []

/-! ## Template expansion (`builtin.rs` lines 627-714) -/

/-- `get_variables_helper`: collect the symbols of the template that are
bound in the match environment (the pattern variables), excluding the
ellipsis symbol. -/
def get_variables_helper (template : Datum) (varEnv : Env)
    (vars : List String) : List String :=
  match template with
  | .Symbol s =>
    if envContains varEnv s && s != "..." then insertStr s vars else vars
  | .Pair car cdr =>
    get_variables_helper cdr varEnv (get_variables_helper car varEnv vars)
  | _ => vars

/-- `get_variables`. -/
def get_variables (template : Datum) (varEnv : Env) : List String :=
  get_variables_helper template varEnv []

/-- The unreversing loop at the end of `apply_template`'s ellipsis case:
cons the elements of the (reversed, proper) result list onto `result` in
traversal order.  The source panics on a non-list node, which is
unreachable because the loop only receives lists it built itself;
modelled by stopping there. -/
def revOnto : Datum → Datum → Datum
  | .EmptyList, result => result
  | .Pair a b, result => revOnto b (.Pair a result)
  | _, result => result

/-- The per-iteration sub-environment of the ellipsis expansion: each
iterated variable bound to the `i`-th element of its capture vector. -/
def subEnvAt (vectors : List (String × List Datum)) (i : Nat) : Env :=
  vectors.foldl (fun e p => envDefine e p.1 (p.2.getD i .EmptyList)) []

mutual

/-- `apply_template`: symbols bound in the match environment are replaced
by their captures; a pair whose cdr starts with the ellipsis symbol
expands the car once per capture index (see `applyIters`) followed by the
expansion of the tail after the ellipsis; other pairs expand car and cdr;
everything else is returned unchanged. -/
def apply_template (template : Datum) (varEnv : Env) :
    Except RuntimeError Datum :=
  match template with
  | .Symbol s =>
    if envContains varEnv s then .ok ((envGet varEnv s).getD .EmptyList)
    else .ok (.Symbol s)
  | .Pair car (.Pair (.Symbol s) after) =>
    if s == "..." then
      let vars := get_variables car varEnv
      if vars.isEmpty then .error "Expected variables before ellipses"
      else
        let vectors := vars.map fun v =>
          (v, (Datum.as_vec ((envGet varEnv v).getD .EmptyList)).1)
        let iterations := (vectors.map (fun p => p.2.length)).min?.getD 0
        match applyIters car vectors .EmptyList 0 iterations with
        | .error e => .error e
        | .ok reversed =>
          match apply_template after varEnv with
          | .error e => .error e
          | .ok result => .ok (revOnto reversed result)
    else
      match apply_template car varEnv with
      | .error e => .error e
      | .ok carResult =>
        match apply_template (.Pair (.Symbol s) after) varEnv with
        | .error e => .error e
        | .ok cdrResult => .ok (.Pair carResult cdrResult)
  | .Pair car cdr =>
    match apply_template car varEnv with
    | .error e => .error e
    | .ok carResult =>
      match apply_template cdr varEnv with
      | .error e => .error e
      | .ok cdrResult => .ok (.Pair carResult cdrResult)
  | t => .ok t
termination_by (sizeOf template, 0)

/-- The iteration loop of `apply_template`'s ellipsis case: for each
`i` below the minimum capture length, expand the sub-template in the
sub-environment of index `i`, consing the results into a reversed list. -/
def applyIters (t : Datum) (vectors : List (String × List Datum))
    (acc : Datum) (i remaining : Nat) : Except RuntimeError Datum :=
  match remaining with
  | 0 => .ok acc
  | r + 1 =>
    match apply_template t (subEnvAt vectors i) with
    | .error e => .error e
    | .ok result => applyIters t vectors (.Pair result acc) (i + 1) r
termination_by (sizeOf t, remaining + 1)

end

/-! ## Hygienic renaming (`builtin.rs` lines 351-368 and 400-416) -/

/-- The decimal digits of `n` (most significant first), computed with
structural fuel; `fuel ≥ n` always suffices. -/
def decimalDigitsAux : Nat → Nat → List Nat
  | _, 0 => []
  | 0, _ + 1 => []
  | fuel + 1, n + 1 => decimalDigitsAux fuel ((n + 1) / 10) ++ [(n + 1) % 10]

/-- The character of a decimal digit. -/
def digitChar (d : Nat) : Char := Char.ofNat (48 + d)

/-- The decimal rendering of a natural number, as produced by the
formatting of `format!` for the hygienic counter. -/
def decimalRepr (n : Nat) : String :=
  if n = 0 then "0" else ⟨(decimalDigitsAux n n).map digitChar⟩

/-- The candidate name `<base>_hygienic_<k>`. -/
def hygienicCand (base : String) (k : Nat) : String :=
  base ++ "_hygienic_" ++ decimalRepr k

/-- The renaming loop of the macro expander: starting from counter `k`,
return the first candidate name unbound in the caller's environment.  The
source loops unconditionally; `env.length + 1` tries always suffice (see
`renameSymbol_spec`), so the fuel default is unreachable. -/
def renameSymbolLoop (env : Env) (base : String) : Nat → Nat → String
  | k, 0 => hygienicCand base k
  | k, fuel + 1 =>
    if (envGet env (hygienicCand base k)).isNone then hygienicCand base k
    else renameSymbolLoop env base (k + 1) fuel

/-- The per-symbol renaming of the expander (lines 355-364): a symbol
unbound in the caller's environment keeps its name; a bound one becomes
`<base>_hygienic_<k>` for the first counter whose candidate is unbound. -/
def renameSymbol (env : Env) (base : String) : String :=
  if (envGet env base).isNone then base
  else renameSymbolLoop env base 1 (env.length + 1)

/-- The name substitution built by the expander: every template symbol is
mapped to its renaming, and afterwards the macro invocation head is
mapped to itself, overriding any renaming. -/
def nameMappings (templateSyms : List String) (macroName : String)
    (env : Env) : String → Option String :=
  fun s =>
    if s = macroName then some macroName
    else if s ∈ templateSyms then some (renameSymbol env s) else none

/-- `rename_template`: apply the substitution to every symbol of the
template tree, leaving unmapped symbols (and everything else) unchanged. -/
def rename_template (template : Datum) (mappings : String → Option String) : Datum :=
  match template with
  | .Symbol s =>
    match mappings s with
    | some m => .Symbol m
    | none => .Symbol s
  | .Pair car cdr => .Pair (rename_template car mappings) (rename_template cdr mappings)
  | d => d

/-! ## Auxiliary notions used by the theorems -/

/-- The symbols occurring anywhere in a datum tree. -/
def symbolsOf : Datum → List String
  | .Symbol s => [s]
  | .Pair a b => symbolsOf a ++ symbolsOf b
  | _ => []

/-- The pattern variables of a pattern: its non-keyword, non-ellipsis
symbols (spec section 4.5). -/
def patternVars (p : Datum) (keywords : List String) : List String :=
  (symbolsOf p).filter (fun s => s ∉ keywords && s != "...")

/-- Patterns containing no vector (whose matching is unimplemented in the
source) and no procedure or syntax-rule literal. -/
def vectorFree : Datum → Bool
  | .Vector _ => false
  | .Procedure _ _ => false
  | .SyntaxRule _ => false
  | .Pair a b => vectorFree a && vectorFree b
  | _ => true

/-- The tail after the first element of a pair (the part following the
ellipsis token). -/
def ellipsisTail : Datum → Datum
  | .Pair _ after => after
  | _ => .EmptyList

/-- Every ellipsis marker inside the pattern sits at the end of its list:
whenever a cdr starts with the ellipsis symbol, the tail after the
ellipsis is `EmptyList`.  This is what `verify_pattern` guarantees for
accepted patterns. -/
def ellipsisTailsEmpty : Datum → Bool
  | .Pair car cdr =>
    if ellipsisNext cdr then
      (ellipsisTail cdr == Datum.EmptyList) && ellipsisTailsEmpty car
    else ellipsisTailsEmpty car && ellipsisTailsEmpty cdr
  | _ => true

/-- The variables that a successful match is guaranteed to bind: all
non-keyword symbols for a plain symbol pattern, the sub-pattern's
variables for an ellipsis pattern (the tail after the ellipsis is never
matched), and the union for other pairs. -/
def matchVars (p : Datum) (keywords : List String) : List String :=
  match p with
  | .Symbol s => if s ∈ keywords then [] else [s]
  | .Pair car cdr =>
    if ellipsisNext cdr then matchVars car keywords
    else matchVars car keywords ++ matchVars cdr keywords
  | _ => []

/-- Whether a datum is a proper list. -/
def isProperList : Datum → Bool
  | .EmptyList => true
  | .Pair _ cdr => isProperList cdr
  | _ => false

/-- The capture of variable `v` when sub-pattern `p` matches one input
element from a fresh environment (the value merged by the ellipsis loop). -/
def captureOf (p : Datum) (keywords : List String) (v : String) (e : Datum) : Datum :=
  ((match_pattern_helper p e keywords []).bind (fun se => envGet se v)).getD .EmptyList

/-- The reversed accumulation the merge step builds: the captures consed
in input order onto `EmptyList`, most recent first. -/
def stackOf (l : List Datum) : Datum :=
  l.foldl (fun acc c => Datum.Pair c acc) Datum.EmptyList

/-- Whether a result is a runtime error. -/
def resultIsError {α : Type} : Except RuntimeError α → Bool
  | .error _ => true
  | .ok _ => false

/-- Whether a datum is a `Number`. -/
def isNumber : Datum → Bool
  | .Number _ => true
  | _ => false

/-- Value of a decimal digit list (most significant first); used to show
`decimalRepr` is injective. -/
def fromDigits (l : List Nat) : Nat := l.foldl (fun acc d => acc * 10 + d) 0

/-- The digit denoted by a digit character (left inverse of `digitChar`). -/
def charToDigit (c : Char) : Nat := c.toNat - 48

/-! # Theorems -/

/-! ## C10 — `append` with zero arguments -/

/-- C10: calling `append` with zero arguments returns `EmptyList`; the
zero-argument case returns before any arity check, so no arity error is
raised. -/
theorem c10_append_empty : native_append [] = .ok Datum.EmptyList := rfl

/-! ## C1 — `eqv?` / `eq?` -/

/-- C1 counterexample: the claim states that `eqv?` on two `Ext` values
returns true exactly when they are the same object, but two references to
the same `Ext` object compare as `#f` — the `Ext` case falls through to
the catch-all arm of `native_eqv_p`. -/
theorem c1_eqv_counterexample :
    sameObject (Datum.Ext 0) (Datum.Ext 0) = true ∧
    native_eqv_p [Datum.Ext 0, Datum.Ext 0] = .ok (Datum.Boolean false) :=
  ⟨rfl, rfl⟩

/-- C1 (amended): for two-argument calls, `eqv?` is content equality for
booleans, symbols, numbers, characters and the empty list; object
identity for vectors and procedures; `#f` for two pairs and for two
strings (which, being exclusively owned, are never the same object — so
`eqv?` on two distinct pair objects is `#f`); and unconditionally `#f`
for two `Ext` values, even for the same object. -/
theorem c1_eqv_amended :
    (∀ b1 b2, native_eqv_p [.Boolean b1, .Boolean b2] = .ok (.Boolean (b1 == b2))) ∧
    (∀ s1 s2, native_eqv_p [.Symbol s1, .Symbol s2] = .ok (.Boolean (s1 == s2))) ∧
    (∀ n1 n2, native_eqv_p [.Number n1, .Number n2] = .ok (.Boolean (n1 == n2))) ∧
    (∀ c1 c2, native_eqv_p [.Character c1, .Character c2] = .ok (.Boolean (c1 == c2))) ∧
    native_eqv_p [.EmptyList, .EmptyList] = .ok (.Boolean true) ∧
    (∀ r1 r2, native_eqv_p [.Vector r1, .Vector r2] =
      .ok (.Boolean (sameObject (.Vector r1) (.Vector r2)))) ∧
    (∀ k1 r1 k2 r2, native_eqv_p [.Procedure k1 r1, .Procedure k2 r2] =
      .ok (.Boolean (sameObject (.Procedure k1 r1) (.Procedure k2 r2)))) ∧
    (∀ a1 d1 a2 d2, native_eqv_p [.Pair a1 d1, .Pair a2 d2] =
      .ok (.Boolean (sameObject (.Pair a1 d1) (.Pair a2 d2)))) ∧
    (∀ s1 s2, native_eqv_p [.String s1, .String s2] =
      .ok (.Boolean (sameObject (.String s1) (.String s2)))) ∧
    (∀ r1 r2, native_eqv_p [.Ext r1, .Ext r2] = .ok (.Boolean false)) :=
  ⟨fun _ _ => rfl, fun _ _ => rfl, fun _ _ => rfl, fun _ _ => rfl, rfl,
   fun _ _ => rfl, fun _ _ _ _ => rfl, fun _ _ _ _ => rfl, fun _ _ => rfl,
   fun _ _ => rfl⟩

/-! ## C2 — compilation of `if` -/

/-- C2 counterexample: `special_form_if` emits `JumpIfFalse 4` while the
then-branch consists of the 3 instructions push-`t`, tail-evaluate,
`Return`; under the claim's literal jump semantics ("pop; if false, skip
the next `k` instructions") the compiled `(if #f 1 2)` does not evaluate
to `2` (the jump also skips the push of the else operand, leaving the
value stack empty at the final `Evaluate`). -/
theorem c2_if_counterexample :
    special_form_if [Datum.Boolean false, Datum.Number 1, Datum.Number 2] =
      .ok [.PushValue (.Boolean false), .Evaluate false, .JumpIfFalse 4,
           .PushValue (.Number 1), .Evaluate true, .Return,
           .PushValue (.Number 2), .Evaluate true] ∧
    [Instruction.PushValue (.Number 1), .Evaluate true, .Return].length = 3 ∧
    runLiteral [.PushValue (.Boolean false), .Evaluate false, .JumpIfFalse 4,
                .PushValue (.Number 1), .Evaluate true, .Return,
                .PushValue (.Number 2), .Evaluate true] [] = none :=
  ⟨rfl, rfl, rfl⟩

/-- C2 (amended): `if` compiles to condition (non-tail), `JumpIfFalse 4`,
then the three then-branch instructions (push `t`, tail-evaluate,
`Return`) and the else branch (push `e` and tail-evaluate, or push
`Boolean false` when absent).  The jump count 4 covers the jump
instruction itself, so a false condition skips exactly the 3 then-branch
instructions and continues at the else branch; hence `(if #f 1 2)`
evaluates to `2` and `(if #f 1)` to `#f`, while a true condition runs the
then branch and `Return` ends the frame before the else branch. -/
theorem c2_if_amended :
    (∀ c t e, special_form_if [c, t, e] =
      .ok [.PushValue c, .Evaluate false, .JumpIfFalse 4,
           .PushValue t, .Evaluate true, .Return,
           .PushValue e, .Evaluate true]) ∧
    (∀ c t, special_form_if [c, t] =
      .ok [.PushValue c, .Evaluate false, .JumpIfFalse 4,
           .PushValue t, .Evaluate true, .Return,
           .PushValue (.Boolean false)]) ∧
    (∀ t e, runVM [.PushValue (.Boolean false), .Evaluate false, .JumpIfFalse 4,
                   .PushValue t, .Evaluate true, .Return,
                   .PushValue e, .Evaluate true] [] =
      runVM [.PushValue e, .Evaluate true] []) ∧
    (∀ t, runVM [.PushValue (.Boolean false), .Evaluate false, .JumpIfFalse 4,
                 .PushValue t, .Evaluate true, .Return,
                 .PushValue (.Boolean false)] [] = some (.Boolean false)) ∧
    (∀ t e, selfEvaluating t = true →
      runVM [.PushValue (.Boolean true), .Evaluate false, .JumpIfFalse 4,
             .PushValue t, .Evaluate true, .Return,
             .PushValue e, .Evaluate true] [] = some t) ∧
    runVM [.PushValue (.Boolean false), .Evaluate false, .JumpIfFalse 4,
           .PushValue (.Number 1), .Evaluate true, .Return,
           .PushValue (.Number 2), .Evaluate true] [] = some (.Number 2) ∧
    runVM [.PushValue (.Boolean false), .Evaluate false, .JumpIfFalse 4,
           .PushValue (.Number 1), .Evaluate true, .Return,
           .PushValue (.Boolean false)] [] = some (.Boolean false) := by
  refine ⟨fun _ _ _ => rfl, fun _ _ => rfl, fun _ _ => rfl, fun _ => rfl,
    fun t e h => ?_, rfl, rfl⟩
  have hsel : selfEvaluating (Datum.Boolean true) = true := rfl
  have hfl : isFalsey (Datum.Boolean true) = false := rfl
  simp [runVM, runFrame, runFrameAux, h, hsel, hfl]

/-- Witness for C2 (amended): a true condition with a literal then-branch. -/
theorem c2_if_amended_witness :
    runVM [.PushValue (.Boolean true), .Evaluate false, .JumpIfFalse 4,
           .PushValue (.Number 7), .Evaluate true, .Return,
           .PushValue (.Number 8), .Evaluate true] [] = some (.Number 7) :=
  c2_if_amended.2.2.2.2.1 (.Number 7) (.Number 8) rfl

/-! ## C6 — arithmetic natives -/

/-- `isNumber` characterised. -/
theorem isNumber_iff {d : Datum} : isNumber d = true ↔ ∃ n, d = .Number n := by
  cases d <;> simp [isNumber]

/-- A non-number anywhere in the arguments makes `sumLoop` fail. -/
theorem sumLoop_error :
    ∀ (args : List Datum) (acc : Int), (∃ a ∈ args, isNumber a = false) →
      resultIsError (sumLoop args acc) = true := by
  intro args
  induction args with
  | nil => intro acc h; simp at h
  | cons x rest ih =>
    intro acc h
    rcases h with ⟨a, ha, hnum⟩
    rcases List.mem_cons.mp ha with rfl | hmem
    · cases a <;> simp_all [sumLoop, resultIsError, isNumber]
    · cases x <;> simp [sumLoop, resultIsError] <;> exact ih _ ⟨a, hmem, hnum⟩

/-- A non-number anywhere in the arguments makes `productLoop` fail. -/
theorem productLoop_error :
    ∀ (args : List Datum) (acc : Int), (∃ a ∈ args, isNumber a = false) →
      resultIsError (productLoop args acc) = true := by
  intro args
  induction args with
  | nil => intro acc h; simp at h
  | cons x rest ih =>
    intro acc h
    rcases h with ⟨a, ha, hnum⟩
    rcases List.mem_cons.mp ha with rfl | hmem
    · cases a <;> simp_all [productLoop, resultIsError, isNumber]
    · cases x <;> simp [productLoop, resultIsError] <;> exact ih _ ⟨a, hmem, hnum⟩

/-- A non-number anywhere in the arguments makes `diffLoop` fail. -/
theorem diffLoop_error :
    ∀ (args : List Datum) (acc : Int), (∃ a ∈ args, isNumber a = false) →
      resultIsError (diffLoop args acc) = true := by
  intro args
  induction args with
  | nil => intro acc h; simp at h
  | cons x rest ih =>
    intro acc h
    rcases h with ⟨a, ha, hnum⟩
    rcases List.mem_cons.mp ha with rfl | hmem
    · cases a <;> simp_all [diffLoop, resultIsError, isNumber]
    · cases x <;> simp [diffLoop, resultIsError] <;> exact ih _ ⟨a, hmem, hnum⟩

/-- Once the running comparison of `=` is false, the loop ignores the
remaining arguments and returns false. -/
theorem eqLoop_false (first : Int) : ∀ l, eqLoop first l false = .ok false := by
  intro l
  induction l with
  | nil => rfl
  | cons x rest ih => simpa [eqLoop] using ih

/-- A mismatching number among the leading all-number arguments makes `=`
return false (silently skipping everything after the mismatch). -/
theorem eqLoop_mismatch (first : Int) :
    ∀ (pre rest : List Datum), (∀ m ∈ pre, isNumber m = true) →
      (∃ m ∈ pre, m ≠ .Number first) →
      eqLoop first (pre ++ rest) true = .ok false := by
  intro pre
  induction pre with
  | nil => intro rest _ h; simp at h
  | cons x pre' ih =>
    intro rest hall hex
    obtain ⟨k, rfl⟩ := isNumber_iff.mp (hall x (List.mem_cons_self x pre'))
    by_cases hk : k = first
    · have hex' : ∃ m ∈ pre', m ≠ Datum.Number first := by
        rcases hex with ⟨m, hm, hne⟩
        rcases List.mem_cons.mp hm with rfl | hmem
        · exact absurd (by rw [hk]) hne
        · exact ⟨m, hmem, hne⟩
      have hstep := ih rest (fun m hm => hall m (List.mem_cons_of_mem _ hm)) hex'
      simpa [eqLoop, hk] using hstep
    · have hbeq : (k == first) = false := by simp [hk]
      simp [eqLoop, hbeq, eqLoop_false]

/-- A non-number argument reached while every earlier argument equalled
the first one is a type error. -/
theorem eqLoop_error_after (first : Int) :
    ∀ (pre : List Datum) (a : Datum) (rest : List Datum),
      (∀ m ∈ pre, m = .Number first) → isNumber a = false →
      resultIsError (eqLoop first (pre ++ a :: rest) true) = true := by
  intro pre
  induction pre with
  | nil =>
    intro a rest _ hnum
    cases a <;> simp_all [eqLoop, resultIsError, isNumber]
  | cons x pre' ih =>
    intro a rest hall hnum
    have hx := hall x (List.mem_cons_self x pre')
    subst hx
    have := ih a rest (fun m hm => hall m (List.mem_cons_of_mem _ hm)) hnum
    simpa [eqLoop] using this

/-- C6 counterexample: the claim states that every argument list
containing a non-number makes `=` fail with a type error, but after a
mismatch the short-circuiting comparison stops unwrapping arguments:
`(= 1 2 #t)` returns `#f` without error. -/
theorem c6_equals_counterexample :
    native_equals [Datum.Number 1, Datum.Number 2, Datum.Boolean true] =
      .ok (Datum.Boolean false) := rfl

/-- C6 (amended): `+` with no arguments is 0, `*` with no arguments is 1,
`-` requires at least one argument and negates a single argument, `=`
with zero or one (numeric) argument is `#t`; any non-number argument
makes `+`, `-` and `*` fail with a type error, and makes `=` fail exactly
when it is the first argument or is reached while all earlier arguments
equalled the first; once some argument differs from the first, `=`
returns `#f` without type-checking the rest. -/
theorem c6_arith_amended :
    native_add [] = .ok (Datum.Number 0) ∧
    native_multiply [] = .ok (Datum.Number 1) ∧
    resultIsError (native_subtract []) = true ∧
    (∀ n : Int, native_subtract [.Number n] = .ok (.Number (-n))) ∧
    native_equals [] = .ok (.Boolean true) ∧
    (∀ n : Int, native_equals [.Number n] = .ok (.Boolean true)) ∧
    (∀ args, (∃ a ∈ args, isNumber a = false) →
      resultIsError (native_add args) = true ∧
      resultIsError (native_subtract args) = true ∧
      resultIsError (native_multiply args) = true) ∧
    (∀ a rest, isNumber a = false →
      resultIsError (native_equals (a :: rest)) = true) ∧
    (∀ (first : Int) pre a rest, (∀ m ∈ pre, m = .Number first) →
      isNumber a = false →
      resultIsError (native_equals (.Number first :: (pre ++ a :: rest))) = true) ∧
    (∀ (first : Int) pre rest, (∀ m ∈ pre, isNumber m = true) →
      (∃ m ∈ pre, m ≠ .Number first) →
      native_equals (.Number first :: (pre ++ rest)) = .ok (.Boolean false)) := by
  refine ⟨rfl, rfl, rfl, fun n => rfl, rfl, fun n => rfl, ?_, ?_, ?_, ?_⟩
  · intro args h
    refine ⟨?_, ?_, ?_⟩
    · have := sumLoop_error args 0 h
      cases hs : sumLoop args 0 <;> simp_all [native_add, resultIsError, Except.map]
    · match args, h with
      | [], h => simp at h
      | x :: rest, h =>
        rcases h with ⟨a, ha, hnum⟩
        by_cases hx : isNumber x = true
        · obtain ⟨n, rfl⟩ := isNumber_iff.mp hx
          have hmem : a ∈ rest := by
            rcases List.mem_cons.mp ha with rfl | hmem
            · simp [isNumber] at hnum
            · exact hmem
          have hd := diffLoop_error rest n ⟨a, hmem, hnum⟩
          cases hs : diffLoop rest n <;>
            simp_all [native_subtract, resultIsError, Except.map]
        · simp only [Bool.not_eq_true] at hx
          cases x <;> simp_all [native_subtract, resultIsError, isNumber]
    · have := productLoop_error args 1 h
      cases hs : productLoop args 1 <;> simp_all [native_multiply, resultIsError, Except.map]
  · intro a rest hnum
    cases a <;> simp_all [native_equals, resultIsError, isNumber]
  · intro first pre a rest hall hnum
    have := eqLoop_error_after first pre a rest hall hnum
    cases hs : eqLoop first (pre ++ a :: rest) true <;>
      simp_all [native_equals, resultIsError, Except.map]
  · intro first pre rest hall hex
    have := eqLoop_mismatch first pre rest hall hex
    simp [native_equals, this, Except.map]

/-- Witness for C6 (amended): `(+ 1 #t)` is a type error, and
`(= 1 1 #t)` is a type error reached through an all-equal prefix. -/
theorem c6_arith_amended_witness :
    resultIsError (native_add [Datum.Number 1, Datum.Boolean true]) = true ∧
    resultIsError (native_equals [Datum.Number 1, Datum.Number 1, Datum.Boolean true]) = true := by
  constructor
  · exact (c6_arith_amended.2.2.2.2.2.2.1 [.Number 1, .Boolean true]
      ⟨.Boolean true, by simp, rfl⟩).1
  · exact c6_arith_amended.2.2.2.2.2.2.2.2.1 1 [.Number 1] (.Boolean true) []
      (by intro m hm; simpa using hm) rfl

/-! ## C7 — hash tables -/

/-- C7: a key of variant `Procedure`, `SyntaxRule` or `Ext` makes
`hash-set!` fail with a type error leaving the table unchanged while
`hash-ref` returns `#f`; any other key is stored by `hash-set!` (which
returns the value) and found by a subsequent `hash-ref`, and an absent
key reads as `#f`. -/
theorem c7_hash_table :
    (∀ (t : Table) k v, hashableKey k = false →
      native_hash_set t k v = (t, .error "Hashing not supported") ∧
      native_hash_ref t k = .ok (.Boolean false)) ∧
    (∀ (t : Table) k v, hashableKey k = true →
      native_hash_set t k v = (tableInsert t k v, .ok v) ∧
      native_hash_ref (tableInsert t k v) k = .ok v) ∧
    (∀ (t : Table) k, hashableKey k = true → tableGet t k = none →
      native_hash_ref t k = .ok (.Boolean false)) ∧
    (∀ k, hashableKey k = false ↔
      (∃ pk r, k = .Procedure pk r) ∨ (∃ r, k = .SyntaxRule r) ∨ (∃ r, k = .Ext r)) := by
  refine ⟨?_, ?_, ?_, ?_⟩
  · intro t k v h
    exact ⟨by simp [native_hash_set, h], by simp [native_hash_ref, h]⟩
  · intro t k v h
    refine ⟨by simp [native_hash_set, h], ?_⟩
    have : tableGet (tableInsert t k v) k = some v := by
      simp [tableGet, tableInsert, List.find?]
    simp [native_hash_ref, h, this]
  · intro t k h habs
    simp [native_hash_ref, h, habs]
  · intro k
    cases k <;> simp [hashableKey]

/-- Witness for C7: an `Ext` key is refused by `hash-set!`, and a stored
symbol key is read back. -/
theorem c7_hash_table_witness :
    native_hash_set [] (Datum.Ext 0) (Datum.Number 1) =
      ([], .error "Hashing not supported") ∧
    native_hash_ref (tableInsert [] (Datum.Symbol "k") (Datum.Number 42))
      (Datum.Symbol "k") = .ok (Datum.Number 42) :=
  ⟨(c7_hash_table.1 [] (.Ext 0) (.Number 1) rfl).1,
   (c7_hash_table.2.1 [] (.Symbol "k") (.Number 42) rfl).2⟩

/-! ## C8 — `substring` -/

/-- For an in-range non-negative index the `usize` cast is `toNat`. -/
theorem usizeCast_nonneg {n : Int} (h0 : 0 ≤ n) (h1 : n < 2 ^ 64) :
    usizeCast n = n.toNat := by
  unfold usizeCast
  omega

/-- A negative `i64` index wraps to at least `2 ^ 63`. -/
theorem usizeCast_neg {n : Int} (h0 : -(2 ^ 63) ≤ n) (h1 : n < 0) :
    2 ^ 63 ≤ usizeCast n := by
  unfold usizeCast
  omega

/-- C8 counterexample: the claim's dichotomy — return the substring when
`0 ≤ start ≤ end ≤ len`, domain error otherwise — fails on non-ASCII
data: for `"é"` (one character, two bytes) the in-range call
`(substring "é" 1 2)` slices inside the character and panics, neither
returning a substring nor raising a domain error. -/
theorem c8_substring_counterexample :
    (0 : Int) ≤ 1 ∧ (1 : Int) ≤ 2 ∧ (2 : Int) ≤ (strLen "é" : Int) ∧
    native_substring [.String "é", .Number 1, .Number 2] = none := by
  refine ⟨by decide, by decide, by decide, ?_⟩
  decide

/-- C8 (amended): `substring` indexes by bytes of the UTF-8 encoding
(`String::len`, `&string[start..end]`): out-of-order or out-of-range
offsets (after the `as usize` cast, so negative `i64` indices too) are a
domain error; in-range offsets produce the byte slice, which panics (is
`none`) when an offset falls inside a multi-byte character; on ASCII
data byte and character indexing coincide, so `(substring "hello" 1 4)`
is `"ell"`, `(substring "hi" 0 5)` is an error, and `(substring "é" 0 2)`
returns the full `"é"`. -/
theorem c8_substring_amended :
    (∀ (s : String) (st en : Int),
      -(2 ^ 63) ≤ st → st < 2 ^ 63 → -(2 ^ 63) ≤ en → en < 2 ^ 63 →
      ((strLen s : Int) < 2 ^ 63) →
      ((0 ≤ st ∧ st ≤ en ∧ en ≤ (strLen s : Int)) →
        native_substring [.String s, .Number st, .Number en] =
          (strSlice s st.toNat en.toNat).map (fun r => .ok (.String r))) ∧
      (¬(0 ≤ st ∧ st ≤ en ∧ en ≤ (strLen s : Int)) →
        native_substring [.String s, .Number st, .Number en] =
          some (.error "Cannot index string"))) ∧
    (∀ (s : String) (st : Int), -(2 ^ 63) ≤ st → st < 2 ^ 63 →
      ((strLen s : Int) < 2 ^ 63) →
      ((0 ≤ st ∧ st ≤ (strLen s : Int)) →
        native_substring [.String s, .Number st] =
          (strSlice s st.toNat (strLen s)).map (fun r => .ok (.String r))) ∧
      (¬(0 ≤ st ∧ st ≤ (strLen s : Int)) →
        native_substring [.String s, .Number st] =
          some (.error "Cannot index string"))) ∧
    native_substring [.String "hello", .Number 1, .Number 4] =
      some (.ok (.String "ell")) ∧
    native_substring [.String "hi", .Number 0, .Number 5] =
      some (.error "Cannot index string") ∧
    native_substring [.String "é", .Number 0, .Number 2] =
      some (.ok (.String "é")) := by
  refine ⟨?_, ?_, by decide, by decide, by decide⟩
  · intro s st en hst0 hst1 hen0 hen1 hlen
    constructor
    · rintro ⟨h1, h2, h3⟩
      have hst : usizeCast st = st.toNat := usizeCast_nonneg h1 (by omega)
      have hen : usizeCast en = en.toNat := usizeCast_nonneg (by omega) (by omega)
      simp only [native_substring]
      split
      · next hcond =>
        exfalso
        simp only [Bool.or_eq_true, decide_eq_true_eq] at hcond
        rw [hst, hen] at hcond
        omega
      · rw [hst, hen]
    · intro hviol
      simp only [native_substring]
      split
      · next => rfl
      · next hcond =>
        exfalso
        simp only [Bool.or_eq_true, decide_eq_true_eq, not_or, Nat.not_lt] at hcond
        unfold usizeCast at hcond
        omega
  · intro s st hst0 hst1 hlen
    constructor
    · rintro ⟨h1, h2⟩
      have hst : usizeCast st = st.toNat := usizeCast_nonneg h1 (by omega)
      simp only [native_substring]
      split
      · next hcond =>
        exfalso
        simp only [Bool.or_eq_true, decide_eq_true_eq] at hcond
        rw [hst] at hcond
        omega
      · rw [hst]
    · intro hviol
      simp only [native_substring]
      split
      · next => rfl
      · next hcond =>
        exfalso
        simp only [Bool.or_eq_true, decide_eq_true_eq, not_or, Nat.not_lt] at hcond
        unfold usizeCast at hcond
        omega

/-! ## C9 — `syntax-rules` validation -/

/-- Decompose a successful `Except` bind. -/
theorem except_bind_ok {α β : Type} {x : Except RuntimeError α}
    {f : α → Except RuntimeError β} {b : β} (h : (x >>= f) = .ok b) :
    ∃ a, x = .ok a ∧ f a = .ok b := by
  cases x with
  | error e => simp [Bind.bind, Except.bind] at h
  | ok a => exact ⟨a, rfl, by simpa [Bind.bind, Except.bind] using h⟩

/-- `as_vec` of a proper list recovers its elements. -/
theorem as_vec_list (l : List Datum) : Datum.as_vec (Datum.list l) = (l, true) := by
  induction l with
  | nil => rfl
  | cons x rest ih => simp [Datum.list, Datum.as_vec] at ih ⊢; simp [ih]

/-- `to_vec` of a proper list recovers its elements. -/
theorem to_vec_list (l : List Datum) : Datum.to_vec (Datum.list l) = .ok l := by
  simp [Datum.to_vec, as_vec_list]

/-- The keyword entries of a symbol list all unwrap. -/
theorem parseKeywordList_symbols (kws : List String) :
    parseKeywordList (kws.map Datum.Symbol) = .ok kws := by
  induction kws with
  | nil => rfl
  | cons k rest ih => simp [parseKeywordList, ih, Except.map]

/-- `parseKeywords` on a list of symbols yields them unless the ellipsis
symbol is among them. -/
theorem parseKeywords_symbols (kws : List String) :
    parseKeywords (Datum.list (kws.map Datum.Symbol)) =
      (if "..." ∈ kws then .error "Ellipses cannot be in the keywords list"
       else .ok kws) := by
  unfold parseKeywords
  rw [to_vec_list]
  simp [Bind.bind, Except.bind, parseKeywordList_symbols]

/-- Membership characterisation of a successful pattern verification:
the collected variables are the incoming ones plus every non-keyword,
non-ellipsis symbol of the pattern. -/
theorem verify_pattern_helper_mem :
    ∀ (p : Datum) (kw : List String) (lb : Bool) (vars vars' : List String),
      verify_pattern_helper p kw lb vars = .ok vars' →
      ∀ s, s ∈ vars' ↔ (s ∈ vars ∨ (s ∈ symbolsOf p ∧ s ∉ kw ∧ s ≠ "...")) := by
  intro p
  induction p with
  | Symbol s0 =>
    intro kw lb vars vars' h s
    by_cases hg : s0 ∉ kw ∧ s0 ≠ "..."
    · have hgb : (decide (s0 ∉ kw) && (s0 != "...")) = true := by
        simp [hg.1, hg.2]
      rw [verify_pattern_helper] at h
      rw [hgb] at h
      simp only [if_true] at h
      by_cases hv : s0 ∈ vars
      · simp [hv] at h
      · simp only [hv, if_false] at h
        cases h
        simp only [List.mem_cons, symbolsOf, List.not_mem_nil, or_false]
        constructor
        · rintro (rfl | hs)
          · exact Or.inr ⟨rfl, hg.1, hg.2⟩
          · exact Or.inl hs
        · rintro (hs | ⟨rfl, _, _⟩)
          · exact Or.inr hs
          · exact Or.inl rfl
    · have hgb : (decide (s0 ∉ kw) && (s0 != "...")) = false := by
        rcases not_and_or.mp hg with h1 | h2
        · have hkmem : s0 ∈ kw := not_not.mp h1
          simp [hkmem]
        · have hde : s0 = "..." := not_not.mp h2
          simp [hde]
      rw [verify_pattern_helper] at h
      rw [hgb] at h
      simp only [Bool.false_eq_true, if_false] at h
      cases h
      simp only [symbolsOf, List.mem_cons, List.not_mem_nil, or_false]
      constructor
      · exact fun hs => Or.inl hs
      · rintro (hs | ⟨rfl, hk, hd⟩)
        · exact hs
        · exact absurd ⟨hk, hd⟩ hg
  | Pair car cdr ihcar ihcdr =>
    intro kw lb vars vars' h s
    rw [verify_pattern_helper] at h
    obtain ⟨u, hu, h1⟩ := except_bind_ok h
    obtain ⟨vars1, hcar, hcdr⟩ := except_bind_ok h1
    have hm1 := ihcar kw true vars vars1 hcar s
    have hm2 := ihcdr kw false vars1 vars' hcdr s
    simp only [symbolsOf, List.mem_append]
    rw [hm2, hm1]
    tauto
  | Boolean b => intro kw lb vars vars' h s; cases h; simp [symbolsOf]
  | Number n => intro kw lb vars vars' h s; cases h; simp [symbolsOf]
  | Character c => intro kw lb vars vars' h s; cases h; simp [symbolsOf]
  | String str => intro kw lb vars vars' h s; cases h; simp [symbolsOf]
  | EmptyList => intro kw lb vars vars' h s; cases h; simp [symbolsOf]
  | Vector r => intro kw lb vars vars' h s; cases h; simp [symbolsOf]
  | Procedure pk r => intro kw lb vars vars' h s; cases h; simp [symbolsOf]
  | SyntaxRule r => intro kw lb vars vars' h s; cases h; simp [symbolsOf]
  | Ext r => intro kw lb vars vars' h s; cases h; simp [symbolsOf]

/-- A successful pattern verification sees each non-keyword,
non-ellipsis symbol at most once (counting an occurrence already
collected in `vars`). -/
theorem verify_pattern_helper_count :
    ∀ (p : Datum) (kw : List String) (lb : Bool) (vars vars' : List String),
      verify_pattern_helper p kw lb vars = .ok vars' →
      ∀ s, s ∉ kw → s ≠ "..." →
        (symbolsOf p).count s + (if s ∈ vars then 1 else 0) ≤ 1 := by
  intro p
  induction p with
  | Symbol s0 =>
    intro kw lb vars vars' h s hk hd
    by_cases hs : s = s0
    · subst hs
      have hgb : (decide (s ∉ kw) && (s != "...")) = true := by simp [hk, hd]
      rw [verify_pattern_helper] at h
      rw [hgb] at h
      simp only [if_true] at h
      by_cases hv : s ∈ vars
      · simp [hv] at h
      · simp [symbolsOf, hv]
    · have : (symbolsOf (Datum.Symbol s0)).count s = 0 := by
        simp [symbolsOf, List.count_singleton]
        exact fun hh => absurd hh.symm hs
      rw [this]
      split <;> omega
  | Pair car cdr ihcar ihcdr =>
    intro kw lb vars vars' h s hk hd
    rw [verify_pattern_helper] at h
    obtain ⟨u, hu, h1⟩ := except_bind_ok h
    obtain ⟨vars1, hcar, hcdr⟩ := except_bind_ok h1
    have hcount1 := ihcar kw true vars vars1 hcar s hk hd
    have hcount2 := ihcdr kw false vars1 vars' hcdr s hk hd
    have hmem1 := verify_pattern_helper_mem car kw true vars vars1 hcar s
    simp only [symbolsOf, List.count_append]
    by_cases hv : s ∈ vars
    · have hv1 : s ∈ vars1 := hmem1.mpr (Or.inl hv)
      simp only [hv, if_true] at hcount1
      simp only [hv1, if_true] at hcount2
      simp only [hv, if_true]
      omega
    · simp only [hv, if_false] at hcount1 ⊢
      by_cases hcar0 : (symbolsOf car).count s = 0
      · have hnotmem : s ∉ symbolsOf car := List.count_eq_zero.mp hcar0
        have hv1 : s ∉ vars1 := by
          intro hmem
          rcases (hmem1.mp hmem) with h' | ⟨h', _, _⟩
          · exact hv h'
          · exact hnotmem h'
        simp only [hv1, if_false] at hcount2
        omega
      · have hmemcar : s ∈ symbolsOf car := by
          by_contra hnm
          exact hcar0 (List.count_eq_zero.mpr hnm)
        have hv1 : s ∈ vars1 := hmem1.mpr (Or.inr ⟨hmemcar, hk, hd⟩)
        simp only [hv1, if_true] at hcount2
        omega
  | Boolean b => intro kw lb vars vars' h s hk hd; simp [symbolsOf]; split <;> omega
  | Number n => intro kw lb vars vars' h s hk hd; simp [symbolsOf]; split <;> omega
  | Character c => intro kw lb vars vars' h s hk hd; simp [symbolsOf]; split <;> omega
  | String str => intro kw lb vars vars' h s hk hd; simp [symbolsOf]; split <;> omega
  | EmptyList => intro kw lb vars vars' h s hk hd; simp [symbolsOf]; split <;> omega
  | Vector r => intro kw lb vars vars' h s hk hd; simp [symbolsOf]; split <;> omega
  | Procedure pk r => intro kw lb vars vars' h s hk hd; simp [symbolsOf]; split <;> omega
  | SyntaxRule r => intro kw lb vars vars' h s hk hd; simp [symbolsOf]; split <;> omega
  | Ext r => intro kw lb vars vars' h s hk hd; simp [symbolsOf]; split <;> omega

/-- C9 counterexample: the claim requires a syntax error whenever `...`
occurs other than as the last element of a list immediately after a
sub-pattern, but the dotted pattern `(x . ...)` — where `...` is the cdr
itself, not a list element — passes verification, with `x` as its only
pattern variable. -/
theorem c9_verify_counterexample :
    verify_pattern (Datum.Pair (.Symbol "x") (.Symbol "...")) [] = .ok ["x"] := by
  rfl

/-- C9 (amended): evaluating `syntax-rules` fails at definition time if
`...` is among the keywords, or if a non-keyword non-`...` symbol occurs
twice in one pattern, or if `...` occurs as the car of a pair either at
the beginning of a list or with a cdr other than `EmptyList`; an
occurrence of `...` in a dotted cdr position (or as the whole pattern) is
not rejected.  On success the pattern variables are exactly the
non-keyword, non-`...` symbols of the pattern. -/
theorem c9_verify_amended :
    (∀ (kws : List String) (rest : List Datum), "..." ∈ kws →
      resultIsError (special_form_syntax_rules_validate
        (Datum.list (kws.map Datum.Symbol) :: rest)) = true) ∧
    (∀ (p : Datum) (kw : List String),
      (∃ s, s ∉ kw ∧ s ≠ "..." ∧ 2 ≤ (symbolsOf p).count s) →
      resultIsError (verify_pattern p kw) = true) ∧
    (∀ (d : Datum) (kw : List String) (vars : List String),
      resultIsError (verify_pattern_helper (.Pair (.Symbol "...") d) kw true vars) = true) ∧
    (∀ (d : Datum) (kw : List String) (vars : List String), d ≠ .EmptyList →
      resultIsError (verify_pattern_helper (.Pair (.Symbol "...") d) kw false vars) = true) ∧
    (∀ (kw : List String) (vars : List String),
      verify_pattern_helper (.Pair (.Symbol "...") .EmptyList) kw false vars = .ok vars) ∧
    (∀ (s : String) (kw : List String), s ∉ kw → s ≠ "..." →
      verify_pattern (.Pair (.Symbol s) (.Symbol "...")) kw = .ok [s]) ∧
    (∀ (p : Datum) (kw : List String) (vars' : List String),
      verify_pattern p kw = .ok vars' →
      ∀ s, s ∈ vars' ↔ (s ∈ symbolsOf p ∧ s ∉ kw ∧ s ≠ "...")) := by
  refine ⟨?_, ?_, ?_, ?_, ?_, ?_, ?_⟩
  · intro kws rest hmem
    match rest with
    | [] => rfl
    | r :: rest' =>
      have hkw := parseKeywords_symbols kws
      rw [if_pos hmem] at hkw
      simp only [special_form_syntax_rules_validate, List.length_cons, List.getD]
      rw [if_neg (by omega : ¬(rest'.length + 1 + 1 < 2))]
      simp [hkw, resultIsError, Bind.bind, Except.bind]
  · intro p kw ⟨s, hk, hd, hcount⟩
    cases h : verify_pattern p kw with
    | error e => rfl
    | ok vars' =>
      have := verify_pattern_helper_count p kw true [] vars' h s hk hd
      simp at this
      omega
  · intro d kw vars
    rw [verify_pattern_helper]
    simp [ellipsisCheckPattern, Bind.bind, Except.bind, resultIsError]
  · intro d kw vars hne
    have hbeq : (d == Datum.EmptyList) = false := by
      simp [hne]
    rw [verify_pattern_helper]
    simp [ellipsisCheckPattern, hbeq, Bind.bind, Except.bind, resultIsError]
  · intro kw vars
    simp [verify_pattern_helper, ellipsisCheckPattern, Bind.bind, Except.bind]
  · intro s kw hk hd
    have hbeq : (s == "...") = false := by simp [hd]
    unfold verify_pattern
    simp [verify_pattern_helper, ellipsisCheckPattern, hbeq, hk, hd, Bind.bind, Except.bind]
  · intro p kw vars' h s
    have := verify_pattern_helper_mem p kw true [] vars' h s
    simpa using this

/-- Witness for C9 (amended): a duplicated variable is rejected, the
dotted-`...` acceptance, and the variable characterisation on `(x y)`. -/
theorem c9_verify_amended_witness :
    resultIsError (verify_pattern
      (Datum.Pair (.Symbol "x") (.Pair (.Symbol "x") .EmptyList)) []) = true ∧
    verify_pattern (Datum.Pair (.Symbol "y") (.Symbol "...")) [] = .ok ["y"] ∧
    ("x" ∈ ["x"] ↔ ("x" ∈ symbolsOf (Datum.Symbol "x") ∧ "x" ∉ ([] : List String) ∧ "x" ≠ "...")) := by
  refine ⟨?_, ?_, ?_⟩
  · exact c9_verify_amended.2.1 (Datum.Pair (.Symbol "x") (.Pair (.Symbol "x") .EmptyList)) []
      ⟨"x", by simp, by simp, by simp [symbolsOf]⟩
  · exact c9_verify_amended.2.2.2.2.2.1 "y" [] (by simp) (by simp)
  · exact c9_verify_amended.2.2.2.2.2.2 (Datum.Symbol "x") [] ["x"] (by rfl) "x"

/-- Witness for C8: `(substring "hello" 1 4)` through the general
clause. -/
theorem c8_substring_amended_witness :
    native_substring [.String "hello", .Number 1, .Number 4] =
      (strSlice "hello" (1 : Int).toNat (4 : Int).toNat).map
        (fun r => Except.ok (.String r)) :=
  (c8_substring_amended.1 "hello" 1 4 (by decide) (by decide) (by decide)
    (by decide) (by decide)).1 ⟨by decide, by decide, by decide⟩

/-! ## C4 — hygienic renaming -/

/-- Appending a digit to a digit string. -/
theorem fromDigits_append (l : List Nat) (d : Nat) :
    fromDigits (l ++ [d]) = fromDigits l * 10 + d := by
  simp [fromDigits, List.foldl_append]

/-- `fromDigits` recovers the rendered number (with sufficient fuel). -/
theorem fromDigits_decimalDigitsAux :
    ∀ (fuel n : Nat), n ≤ fuel → fromDigits (decimalDigitsAux fuel n) = n := by
  intro fuel
  induction fuel with
  | zero =>
    intro n hn
    interval_cases n
    rfl
  | succ f ih =>
    intro n hn
    match n with
    | 0 => rfl
    | m + 1 =>
      rw [decimalDigitsAux, fromDigits_append, ih ((m + 1) / 10) (by omega)]
      omega

/-- Every rendered digit is below 10. -/
theorem decimalDigitsAux_lt_ten :
    ∀ (fuel n : Nat), ∀ d ∈ decimalDigitsAux fuel n, d < 10 := by
  intro fuel
  induction fuel with
  | zero =>
    intro n d hd
    match n with
    | 0 => simp [decimalDigitsAux] at hd
    | m + 1 => simp [decimalDigitsAux] at hd
  | succ f ih =>
    intro n d hd
    match n with
    | 0 => simp [decimalDigitsAux] at hd
    | m + 1 =>
      rw [decimalDigitsAux] at hd
      rcases List.mem_append.mp hd with h1 | h2
      · exact ih _ d h1
      · simp at h2
        omega

/-- `charToDigit` inverts `digitChar` on digits. -/
theorem charToDigit_digitChar : ∀ d, d < 10 → charToDigit (digitChar d) = d := by
  intro d hd
  interval_cases d <;> decide

/-- Digit strings decode back to their digit lists. -/
theorem map_charToDigit_digitChar :
    ∀ (l : List Nat), (∀ d ∈ l, d < 10) → (l.map digitChar).map charToDigit = l := by
  intro l
  induction l with
  | nil => intro _; rfl
  | cons x rest ih =>
    intro h
    simp only [List.map_cons, List.cons.injEq]
    exact ⟨charToDigit_digitChar x (h x (by simp)),
           ih (fun d hd => h d (by simp [hd]))⟩

/-- Two strings with the same character data are equal. -/
theorem str_eq_of_data {a b : String} (h : a.data = b.data) : a = b := by
  cases a; cases b; cases h; rfl

/-- The decimal rendering is injective on positive numbers. -/
theorem decimalRepr_inj {m n : Nat} (hm : 0 < m) (hn : 0 < n)
    (h : decimalRepr m = decimalRepr n) : m = n := by
  unfold decimalRepr at h
  rw [if_neg (by omega), if_neg (by omega)] at h
  have hdata : (decimalDigitsAux m m).map digitChar =
      (decimalDigitsAux n n).map digitChar := congrArg String.data h
  have h1 := congrArg (List.map charToDigit) hdata
  rw [map_charToDigit_digitChar _ (decimalDigitsAux_lt_ten m m),
      map_charToDigit_digitChar _ (decimalDigitsAux_lt_ten n n)] at h1
  have h2 := congrArg fromDigits h1
  rwa [fromDigits_decimalDigitsAux m m le_rfl,
       fromDigits_decimalDigitsAux n n le_rfl] at h2

/-- Candidate names with distinct positive counters are distinct. -/
theorem hygienicCand_inj {base : String} {k1 k2 : Nat} (h1 : 0 < k1)
    (h2 : 0 < k2) (h : hygienicCand base k1 = hygienicCand base k2) :
    k1 = k2 := by
  unfold hygienicCand at h
  have hd := congrArg String.data h
  have hsplit : ∀ (x y : String), (x ++ y).data = x.data ++ y.data := fun _ _ => rfl
  rw [hsplit, hsplit, hsplit, hsplit] at hd
  have hd2 := List.append_cancel_left hd
  exact decimalRepr_inj h1 h2 (str_eq_of_data hd2)

/-- A bound name is a key of the environment frame. -/
theorem envGet_mem_keys {env : Env} {s : String}
    (h : (envGet env s).isSome) : s ∈ env.map (·.1) := by
  unfold envGet at h
  cases hf : env.find? (fun p => p.1 == s) with
  | none => rw [hf] at h; simp at h
  | some pr =>
    have hmem := List.mem_of_find?_eq_some hf
    have hbeq := List.find?_some hf
    have hpr : pr.1 = s := by simpa using hbeq
    exact List.mem_map.mpr ⟨pr, hmem, hpr⟩

/-- Pigeonhole: among the first `env.length + 1` candidate counters some
candidate name is unbound. -/
theorem renameSymbol_exists_unbound (env : Env) (base : String) :
    ∃ j, 1 ≤ j ∧ j ≤ env.length + 1 ∧
      (envGet env (hygienicCand base j)).isNone := by
  by_contra hall
  push_neg at hall
  have hsome : ∀ j, 1 ≤ j → j ≤ env.length + 1 →
      (envGet env (hygienicCand base j)).isSome := by
    intro j hj1 hj2
    have := hall j hj1 hj2
    cases h : envGet env (hygienicCand base j) <;> simp_all
  set cands := (List.range (env.length + 1)).map (fun i => hygienicCand base (i + 1)) with hcands
  have hlen : cands.length = env.length + 1 := by simp [hcands]
  have hnodup : cands.Nodup := by
    refine List.Nodup.map_on ?_ (List.nodup_range _)
    intro x hx y hy hxy
    have := @hygienicCand_inj base (x + 1) (y + 1) (by omega) (by omega) hxy
    omega
  have hsub : ∀ c ∈ cands, c ∈ env.map (·.1) := by
    intro c hc
    rcases List.mem_map.mp hc with ⟨i, hi, rfl⟩
    have hi' : i < env.length + 1 := List.mem_range.mp hi
    exact envGet_mem_keys (hsome (i + 1) (by omega) (by omega))
  have hcard1 : cands.toFinset.card = env.length + 1 := by
    rw [List.toFinset_card_of_nodup hnodup, hlen]
  have hcard2 : cands.toFinset ⊆ (env.map (·.1)).toFinset := by
    intro c hc
    exact List.mem_toFinset.mpr (hsub c (List.mem_toFinset.mp hc))
  have hcard3 : (env.map (·.1)).toFinset.card ≤ env.length := by
    have := List.toFinset_card_le (env.map (·.1))
    simpa using this
  have := Finset.card_le_card hcard2
  omega

/-- The renaming loop returns the first unbound candidate at or after the
starting counter, provided one exists within the fuel. -/
theorem renameSymbolLoop_spec (env : Env) (base : String) :
    ∀ (fuel k : Nat),
      (∃ j, k ≤ j ∧ j < k + fuel + 1 ∧
        (envGet env (hygienicCand base j)).isNone) →
      ∃ j, renameSymbolLoop env base k fuel = hygienicCand base j ∧ k ≤ j ∧
        (envGet env (hygienicCand base j)).isNone ∧
        ∀ i, k ≤ i → i < j → (envGet env (hygienicCand base i)).isSome := by
  intro fuel
  induction fuel with
  | zero =>
    rintro k ⟨j, hj1, hj2, hj3⟩
    have hjk : j = k := by omega
    subst hjk
    exact ⟨j, rfl, le_rfl, hj3, fun i hi1 hi2 => absurd hi2 (by omega)⟩
  | succ f ih =>
    rintro k hex
    by_cases hk : (envGet env (hygienicCand base k)).isNone
    · refine ⟨k, ?_, le_rfl, hk, fun i hi1 hi2 => absurd hi2 (by omega)⟩
      rw [renameSymbolLoop, if_pos hk]
    · have hksome : (envGet env (hygienicCand base k)).isSome := by
        cases h : envGet env (hygienicCand base k) <;> simp_all
      have hex' : ∃ j, k + 1 ≤ j ∧ j < (k + 1) + f + 1 ∧
          (envGet env (hygienicCand base j)).isNone := by
        rcases hex with ⟨j, h1, h2, h3⟩
        have hne : j ≠ k := by
          intro he
          subst he
          exact hk h3
        exact ⟨j, by omega, by omega, h3⟩
      obtain ⟨j, hloop, hj1, hj2, hj3⟩ := ih (k + 1) hex'
      refine ⟨j, ?_, by omega, hj2, ?_⟩
      · rw [renameSymbolLoop, if_neg hk]
        exact hloop
      · intro i hi1 hi2
        rcases Nat.eq_or_lt_of_le hi1 with rfl | hlt
        · exact hksome
        · exact hj3 i (by omega) hi2

/-- C4: before a matched template is expanded, every template symbol
bound in the caller's environment is renamed to `<name>_hygienic_<k>`
with `k` the smallest positive counter whose candidate is unbound;
unbound symbols are unchanged, the substitution maps the ellipsis symbol
to itself (it never occurs among the collected template symbols), and the
macro invocation head is always mapped to itself, even when bound. -/
theorem c4_rename_hygienic :
    (∀ (env : Env) (syms : List String) (mn s : String),
      s ∈ syms → s ≠ mn → envGet env s = none →
      nameMappings syms mn env s = some s) ∧
    (∀ (env : Env) (syms : List String) (mn s : String),
      s ∈ syms → s ≠ mn → (envGet env s).isSome →
      ∃ k, 0 < k ∧ nameMappings syms mn env s = some (hygienicCand s k) ∧
        (envGet env (hygienicCand s k)).isNone ∧
        ∀ i, 0 < i → i < k → (envGet env (hygienicCand s i)).isSome) ∧
    (∀ (env : Env) (syms : List String) (mn : String),
      nameMappings syms mn env mn = some mn) ∧
    (∀ (env : Env) (syms : List String) (mn : String), "..." ∉ syms →
      rename_template (.Symbol "...") (nameMappings syms mn env) = .Symbol "...") ∧
    (∀ (t : Datum) (lb : Bool) (syms syms' : List String),
      verify_template_helper t lb syms = .ok syms' → "..." ∉ syms → "..." ∉ syms') ∧
    (∀ (mappings : String → Option String) (s : String),
      rename_template (.Symbol s) mappings = .Symbol ((mappings s).getD s)) := by
  refine ⟨?_, ?_, ?_, ?_, ?_, ?_⟩
  · intro env syms mn s hmem hne hget
    simp [nameMappings, hne, hmem, renameSymbol, hget]
  · intro env syms mn s hmem hne hsome
    have hnone : (envGet env s).isNone = false := by
      cases h : envGet env s <;> simp_all
    obtain ⟨j, hj1, hj2, hj3⟩ := renameSymbol_exists_unbound env s
    obtain ⟨k, hloop, hk1, hk2, hk3⟩ :=
      renameSymbolLoop_spec env s (env.length + 1) 1 ⟨j, hj1, by omega, hj3⟩
    refine ⟨k, by omega, ?_, hk2, ?_⟩
    · unfold nameMappings
      rw [if_neg hne, if_pos hmem, renameSymbol, if_neg (by simp [hnone]), hloop]
    · intro i hi1 hi2
      exact hk3 i (by omega) hi2
  · intro env syms mn
    simp [nameMappings]
  · intro env syms mn hnot
    by_cases hmn : "..." = mn
    · simp [rename_template, nameMappings, hmn]
    · simp [rename_template, nameMappings, hmn, hnot]
  · intro t
    induction t with
    | Symbol s0 =>
      intro lb syms syms' h hnot
      by_cases hs : s0 = "..."
      · rw [verify_template_helper] at h
        rw [hs] at h
        simp at h
        cases h
        exact hnot
      · have hsb : (s0 != "...") = true := by simp [hs]
        rw [verify_template_helper] at h
        rw [hsb] at h
        simp only [if_true] at h
        cases h
        by_cases hin : s0 ∈ syms
        · simpa [hin] using hnot
        · simp only [hin, if_false]
          intro hcon
          rcases List.mem_cons.mp hcon with he | hmem
          · exact hs he.symm
          · exact hnot hmem
    | Pair car cdr ihcar ihcdr =>
      intro lb syms syms' h hnot
      rw [verify_template_helper] at h
      obtain ⟨u, hu, h1⟩ := except_bind_ok h
      obtain ⟨syms1, hcar, hcdr⟩ := except_bind_ok h1
      exact ihcdr false syms1 syms' hcdr (ihcar true syms syms1 hcar hnot)
    | Boolean b => intro lb syms syms' h hnot; cases h; exact hnot
    | Number n => intro lb syms syms' h hnot; cases h; exact hnot
    | Character c => intro lb syms syms' h hnot; cases h; exact hnot
    | String str => intro lb syms syms' h hnot; cases h; exact hnot
    | EmptyList => intro lb syms syms' h hnot; cases h; exact hnot
    | Vector r => intro lb syms syms' h hnot; cases h; exact hnot
    | Procedure pk r => intro lb syms syms' h hnot; cases h; exact hnot
    | SyntaxRule r => intro lb syms syms' h hnot; cases h; exact hnot
    | Ext r => intro lb syms syms' h hnot; cases h; exact hnot
  · intro mappings s
    cases h : mappings s <;> simp [rename_template, h]

/-- Witness for C4: in an environment binding only `x`, the template
symbol `x` is renamed to `x_hygienic_1`, and the head symbol maps to
itself. -/
theorem c4_rename_hygienic_witness :
    nameMappings ["x"] "m" [("x", Datum.Number 1)] "x" =
      some (hygienicCand "x" 1) ∧
    nameMappings ["x"] "m" [("x", Datum.Number 1)] "m" = some "m" := by
  constructor
  · obtain ⟨k, hk0, heq, hunb, hmin⟩ :=
      c4_rename_hygienic.2.1 [("x", Datum.Number 1)] ["x"] "m" "x"
        (by simp) (by decide) (by decide)
    have hk1 : k = 1 := by
      by_contra hne
      have h2 : 1 < k := by omega
      have hb := hmin 1 (by omega) h2
      exact absurd hb (by decide)
    rw [hk1] at heq
    exact heq
  · exact c4_rename_hygienic.2.2.1 [("x", Datum.Number 1)] ["x"] "m"

/-! ## C5 — ellipsis template expansion -/

/-- `mapM` over a mapped list. -/
theorem list_mapM_map {α β γ : Type} (g : α → β)
    (f : β → Except RuntimeError γ) (l : List α) :
    (l.map g).mapM f = l.mapM (fun a => f (g a)) := by
  induction l with
  | nil => rfl
  | cons x rest ih => rw [List.map_cons, List.mapM_cons, List.mapM_cons, ih]

/-- The iteration loop builds, in reverse, the expansions of indices
`i, i + 1, …` — equivalently the ordered expansions collected by `mapM`
over the index range, folded backwards onto the accumulator. -/
theorem applyIters_spec (t : Datum) (vectors : List (String × List Datum)) :
    ∀ (remaining i : Nat) (acc : Datum),
      applyIters t vectors acc i remaining =
        match (List.range remaining).mapM
            (fun j => apply_template t (subEnvAt vectors (i + j))) with
        | .error e => .error e
        | .ok rs => .ok (rs.foldl (fun a r => Datum.Pair r a) acc) := by
  intro remaining
  induction remaining with
  | zero => intro i acc; rw [applyIters]; rfl
  | succ r ihr =>
    intro i acc
    rw [applyIters]
    rw [List.range_succ_eq_map, List.mapM_cons, list_mapM_map]
    have hshift : (fun j => apply_template t (subEnvAt vectors (i + (j + 1)))) =
        (fun j => apply_template t (subEnvAt vectors ((i + 1) + j))) := by
      funext j
      have hadd : i + (j + 1) = (i + 1) + j := by omega
      rw [hadd]
    simp only [Nat.add_zero, Nat.succ_eq_add_one]
    rw [hshift]
    cases h0 : apply_template t (subEnvAt vectors i) with
    | error e => simp [Bind.bind, Except.bind]
    | ok result =>
      simp only [ihr (i + 1) (Datum.Pair result acc)]
      cases h1 : (List.range r).mapM
          (fun j => apply_template t (subEnvAt vectors ((i + 1) + j))) with
      | error e => simp [Bind.bind, Except.bind, h1]
      | ok rs => simp [Bind.bind, Except.bind, h1, Pure.pure, Except.pure, List.foldl_cons]

/-- Unreversing a reversed stack onto `rest` restores the original order. -/
theorem revOnto_foldl :
    ∀ (l : List Datum) (acc rest : Datum),
      revOnto (l.foldl (fun a r => Datum.Pair r a) acc) rest =
        revOnto acc (l.foldr Datum.Pair rest) := by
  intro l
  induction l with
  | nil => intro acc rest; rfl
  | cons x xs ih =>
    intro acc rest
    simp only [List.foldl_cons, List.foldr_cons]
    rw [ih (Datum.Pair x acc) rest]
    rfl

/-- Assembling the ellipsis branch: building the reversed list and
unreversing it onto the rest equals collecting the ordered expansions and
folding them onto the rest. -/
theorem c5_assembly (X : Except RuntimeError (List Datum))
    (restE : Except RuntimeError Datum) :
    (match (match X with
            | .error e => Except.error e
            | .ok rs => Except.ok (rs.foldl (fun a r => Datum.Pair r a) Datum.EmptyList)) with
     | .error e => Except.error e
     | .ok reversed =>
       match restE with
       | .error e => Except.error e
       | .ok result => Except.ok (revOnto reversed result)) =
    (match X with
     | .error e => Except.error e
     | .ok rs =>
       match restE with
       | .error e => Except.error e
       | .ok restResult => Except.ok (rs.foldr Datum.Pair restResult)) := by
  cases X with
  | error e => rfl
  | ok rs =>
    cases restE with
    | error e => rfl
    | ok rr =>
      have hro := revOnto_foldl rs Datum.EmptyList rr
      simp only [hro]
      rfl

/-- C5: expanding a template `(t ... rest)` collects the pattern
variables occurring inside `t` (failing with a malformed-ellipsis error
if there are none), expands `t` once per index below the minimum capture
length — binding each collected variable to its `i`-th captured element
on iteration `i` — and appends the expansions in order, followed by the
expansion of `rest`. -/
theorem c5_apply_template_ellipsis :
    (∀ (t after : Datum) (varEnv : Env), get_variables t varEnv = [] →
      apply_template (.Pair t (.Pair (.Symbol "...") after)) varEnv =
        .error "Expected variables before ellipses") ∧
    (∀ (t after : Datum) (varEnv : Env), get_variables t varEnv ≠ [] →
      apply_template (.Pair t (.Pair (.Symbol "...") after)) varEnv =
        (let vectors := (get_variables t varEnv).map fun v =>
            (v, (Datum.as_vec ((envGet varEnv v).getD .EmptyList)).1)
         let iterations := (vectors.map (fun p => p.2.length)).min?.getD 0
         match (List.range iterations).mapM
             (fun i => apply_template t (subEnvAt vectors i)) with
         | .error e => .error e
         | .ok results =>
           match apply_template after varEnv with
           | .error e => .error e
           | .ok restResult => .ok (results.foldr Datum.Pair restResult))) := by
  constructor
  · intro t after varEnv h
    rw [apply_template]
    simp [h]
  · intro t after varEnv h
    rw [apply_template]
    have hne : (get_variables t varEnv).isEmpty = false := by
      cases hv : get_variables t varEnv with
      | nil => exact absurd hv h
      | cons a l => rfl
    simp only [beq_self_eq_true, if_true, hne, Bool.false_eq_true, if_false]
    rw [applyIters_spec]
    have hzero : (fun j => apply_template t (subEnvAt
        ((get_variables t varEnv).map fun v =>
          (v, (Datum.as_vec ((envGet varEnv v).getD .EmptyList)).1)) (0 + j))) =
        (fun j => apply_template t (subEnvAt
        ((get_variables t varEnv).map fun v =>
          (v, (Datum.as_vec ((envGet varEnv v).getD .EmptyList)).1)) j)) := by
      funext j
      rw [Nat.zero_add]
    rw [hzero]
    exact c5_assembly _ _

/-- Witness for C5: `(x ...)` with `x` capturing `(1 2)` expands to
`(1 2)`, and a template with no variables before the ellipsis errors. -/
theorem c5_apply_template_ellipsis_witness :
    apply_template (Datum.Pair (.Symbol "x") (.Pair (.Symbol "...") .EmptyList))
      [("x", Datum.list [.Number 1, .Number 2])] =
      .ok (Datum.list [.Number 1, .Number 2]) ∧
    apply_template (Datum.Pair (.Number 7) (.Pair (.Symbol "...") .EmptyList))
      [("x", Datum.Number 1)] = .error "Expected variables before ellipses" := by
  constructor
  · have h := c5_apply_template_ellipsis.2 (Datum.Symbol "x") Datum.EmptyList
      [("x", Datum.list [.Number 1, .Number 2])] (by simp [get_variables,
        get_variables_helper, envContains, envGet, insertStr])
    rw [h]
    simp [apply_template, get_variables, get_variables_helper, envContains,
      envGet, insertStr, subEnvAt, envDefine, Datum.list, Datum.as_vec,
      List.mapM_cons, Bind.bind, Except.bind, Pure.pure, Except.pure]
    rfl
  · exact c5_apply_template_ellipsis.1 (Datum.Number 7) Datum.EmptyList
      [("x", Datum.Number 1)] (by simp [get_variables, get_variables_helper,
        envContains, envGet])

/-! ## C3 — greedy ellipsis matching -/

/-! ### Environment lemmas -/

/-- Lookup after a cons. -/
theorem envGet_cons (k : String) (d : Datum) (env : Env) (v : String) :
    envGet ((k, d) :: env) v = if k = v then some d else envGet env v := by
  by_cases h : k = v
  · subst h
    simp [envGet, List.find?]
  · have hb : (k == v) = false := by simp [h]
    simp [envGet, List.find?, hb]
    rw [if_neg h]

/-- Filtering away another key does not change a lookup. -/
theorem envGet_filter (env : Env) (s v : String) (h : v ≠ s) :
    envGet (env.filter (fun p => p.1 != s)) v = envGet env v := by
  induction env with
  | nil => rfl
  | cons x rest ih =>
    rcases x with ⟨k, d⟩
    by_cases hx : k = s
    · have hf : ((k, d).1 != s) = false := by simp [hx]
      rw [List.filter_cons, hf]
      simp only [Bool.false_eq_true, if_false]
      rw [ih, envGet_cons, if_neg (by intro he; exact h (by rw [← he]; exact hx))]
    · have hf : ((k, d).1 != s) = true := by simp [hx]
      rw [List.filter_cons, hf]
      simp only [if_true]
      rw [envGet_cons, envGet_cons, ih]

/-- Lookup after a `define`. -/
theorem envGet_envDefine (env : Env) (s : String) (d : Datum) (v : String) :
    envGet (envDefine env s d) v = if s = v then some d else envGet env v := by
  unfold envDefine
  rw [envGet_cons]
  by_cases h : s = v
  · simp [h]
  · rw [if_neg h, if_neg h, envGet_filter env s v (fun he => h he.symm)]

/-- A lookup succeeds exactly on the keys of the frame. -/
theorem envGet_isSome_iff_mem_keys (env : Env) (v : String) :
    (envGet env v).isSome ↔ v ∈ envKeys env := by
  unfold envKeys
  rw [List.mem_dedup]
  constructor
  · exact fun h => envGet_mem_keys h
  · intro h
    rcases List.mem_map.mp h with ⟨pr, hmem, hfst⟩
    have hfind : (List.find? (fun p => p.1 == v) env).isSome :=
      List.find?_isSome.mpr ⟨pr, hmem, by simp [hfst]⟩
    unfold envGet
    cases hf : List.find? (fun p => p.1 == v) env with
    | none => rw [hf] at hfind; simp at hfind
    | some x => rfl

/-- The keys of a frame have no duplicates. -/
theorem envKeys_nodup (env : Env) : (envKeys env).Nodup :=
  List.nodup_dedup _

/-- Membership after a set insertion. -/
theorem mem_insertStr (s : String) (l : List String) (v : String) :
    v ∈ insertStr s l ↔ v = s ∨ v ∈ l := by
  unfold insertStr
  by_cases h : s ∈ l
  · rw [if_pos h]
    constructor
    · exact fun hv => Or.inr hv
    · rintro (rfl | hv)
      · exact h
      · exact hv
  · rw [if_neg h]
    exact List.mem_cons

/-- Set insertion preserves distinctness. -/
theorem nodup_insertStr (s : String) (l : List String) (h : l.Nodup) :
    (insertStr s l).Nodup := by
  unfold insertStr
  by_cases hs : s ∈ l
  · rw [if_pos hs]; exact h
  · rw [if_neg hs]; exact List.Nodup.cons hs h

/-! ### Fix-up (`reverseVars`) lemmas -/

/-- Unfolding one fix-up step. -/
theorem reverseVars_cons (env : Env) (w : String) (l : List String) :
    reverseVars env (w :: l) = reverseVars (reverseStep env w) l := by
  unfold reverseVars
  rw [List.foldl_cons]

/-- Effect of one fix-up step on a lookup. -/
theorem envGet_reverseStep (e : Env) (w v : String) :
    envGet (reverseStep e w) v =
      if w = v then (envGet e v).map Datum.reverse else envGet e v := by
  unfold reverseStep
  by_cases h : w = v
  · subst h
    cases hg : envGet e w with
    | none => simp [hg]
    | some d => simp [hg, envGet_envDefine]
  · cases hg : envGet e w with
    | none => simp [h]
    | some d => simp [envGet_envDefine, h]

/-- Variables outside the fix-up list are untouched. -/
theorem reverseVars_get_notmem :
    ∀ (l : List String) (env : Env) (v : String), v ∉ l →
      envGet (reverseVars env l) v = envGet env v := by
  intro l
  induction l with
  | nil => intro env v _; rfl
  | cons w l' ih =>
    intro env v h
    rw [reverseVars_cons, ih _ v (fun hm => h (List.mem_cons_of_mem _ hm)),
      envGet_reverseStep,
      if_neg (by intro he; exact h (by rw [← he]; exact List.mem_cons_self w l'))]

/-- A variable in the (duplicate-free) fix-up list has its capture list
reversed exactly once. -/
theorem reverseVars_get_mem :
    ∀ (l : List String) (env : Env) (v : String), l.Nodup → v ∈ l →
      envGet (reverseVars env l) v = (envGet env v).map Datum.reverse := by
  intro l
  induction l with
  | nil => intro env v _ h; simp at h
  | cons w l' ih =>
    intro env v hnd hm
    rcases List.mem_cons.mp hm with rfl | hm'
    · have hnot : v ∉ l' := (List.nodup_cons.mp hnd).1
      rw [reverseVars_cons, reverseVars_get_notmem l' _ v hnot,
        envGet_reverseStep, if_pos rfl]
    · by_cases hw : w = v
      · subst hw
        exact absurd hm' (List.nodup_cons.mp hnd).1
      · rw [reverseVars_cons, ih _ v (List.nodup_cons.mp hnd).2 hm',
          envGet_reverseStep, if_neg hw]

/-- The fix-up preserves definedness. -/
theorem reverseVars_isSome :
    ∀ (l : List String) (env : Env) (v : String),
      (envGet (reverseVars env l) v).isSome = (envGet env v).isSome := by
  intro l
  induction l with
  | nil => intro env v; rfl
  | cons w l' ih =>
    intro env v
    rw [reverseVars_cons, ih, envGet_reverseStep]
    by_cases h : w = v
    · rw [if_pos h]
      cases envGet env v <;> rfl
    · rw [if_neg h]

/-! ### Merge (`mergeFold`) lemmas -/

/-- Unfolding one merge step. -/
theorem mergeFold_cons (sub : Env) (k : String) (ks : List String)
    (env : Env) (toRev : List String) :
    mergeFold sub (k :: ks) env toRev =
      mergeFold sub ks (mergeStep sub (env, toRev) k).1
        (mergeStep sub (env, toRev) k).2 := by
  unfold mergeFold
  rw [List.foldl_cons]

/-- A merge step on a captured key. -/
theorem mergeStep_some (sub : Env) (acc : Env × List String) (k : String)
    (d : Datum) (h : envGet sub k = some d) :
    mergeStep sub acc k =
      (envDefine acc.1 k (.Pair d ((envGet acc.1 k).getD .EmptyList)),
       insertStr k acc.2) := by
  unfold mergeStep
  rw [h]

/-- A merge step on an uncaptured key. -/
theorem mergeStep_none (sub : Env) (acc : Env × List String) (k : String)
    (h : envGet sub k = none) : mergeStep sub acc k = acc := by
  unfold mergeStep
  rw [h]

/-- Merging preserves definedness of any variable. -/
theorem mergeFold_isSome :
    ∀ (ks : List String) (sub env : Env) (toRev : List String) (v : String),
      (envGet env v).isSome → (envGet (mergeFold sub ks env toRev).1 v).isSome := by
  intro ks
  induction ks with
  | nil => intro sub env toRev v h; exact h
  | cons k ks' ih =>
    intro sub env toRev v h
    rw [mergeFold_cons]
    cases hg : envGet sub k with
    | none => rw [mergeStep_none sub _ k hg]; exact ih sub env toRev v h
    | some value =>
      rw [mergeStep_some sub _ k value hg]
      refine ih sub _ _ v ?_
      rw [envGet_envDefine]
      by_cases hk : k = v
      · rw [if_pos hk]; rfl
      · rw [if_neg hk]; exact h

/-- A key of the sub-environment is defined after the merge. -/
theorem mergeFold_binds :
    ∀ (ks : List String) (sub env : Env) (toRev : List String) (v : String),
      v ∈ ks → (envGet sub v).isSome →
      (envGet (mergeFold sub ks env toRev).1 v).isSome := by
  intro ks
  induction ks with
  | nil => intro sub env toRev v h _; simp at h
  | cons k ks' ih =>
    intro sub env toRev v hm hs
    rw [mergeFold_cons]
    rcases List.mem_cons.mp hm with rfl | hm'
    · obtain ⟨d, hd⟩ := Option.isSome_iff_exists.mp hs
      rw [mergeStep_some sub _ v d hd]
      refine mergeFold_isSome ks' sub _ _ v ?_
      rw [envGet_envDefine, if_pos rfl]
      rfl
    · cases hg : envGet sub k with
      | none => rw [mergeStep_none sub _ k hg]; exact ih sub env toRev v hm' hs
      | some value =>
        rw [mergeStep_some sub _ k value hg]
        exact ih sub _ _ v hm' hs

/-- Variables outside the merged key list are untouched. -/
theorem mergeFold_get_notmem :
    ∀ (ks : List String) (sub env : Env) (toRev : List String) (v : String),
      v ∉ ks → envGet (mergeFold sub ks env toRev).1 v = envGet env v := by
  intro ks
  induction ks with
  | nil => intro sub env toRev v _; rfl
  | cons k ks' ih =>
    intro sub env toRev v h
    have hk : ¬(k = v) := by
      intro he
      exact h (by rw [he]; exact List.mem_cons_self v ks')
    have hm : v ∉ ks' := fun hm => h (List.mem_cons_of_mem _ hm)
    rw [mergeFold_cons]
    cases hg : envGet sub k with
    | none => rw [mergeStep_none sub _ k hg]; exact ih sub env toRev v hm
    | some value =>
      rw [mergeStep_some sub _ k value hg, ih sub _ _ v hm,
        envGet_envDefine, if_neg hk]

/-- A merged key receives the captured value consed onto its accumulated
list. -/
theorem mergeFold_get_mem :
    ∀ (ks : List String) (sub env : Env) (toRev : List String) (v : String) (d : Datum),
      ks.Nodup → v ∈ ks → envGet sub v = some d →
      envGet (mergeFold sub ks env toRev).1 v =
        some (.Pair d ((envGet env v).getD .EmptyList)) := by
  intro ks
  induction ks with
  | nil => intro sub env toRev v d _ h _; simp at h
  | cons k ks' ih =>
    intro sub env toRev v d hnd hm hd
    rw [mergeFold_cons]
    rcases List.mem_cons.mp hm with rfl | hm'
    · have hnot : v ∉ ks' := (List.nodup_cons.mp hnd).1
      rw [mergeStep_some sub _ v d hd, mergeFold_get_notmem ks' sub _ _ v hnot,
        envGet_envDefine, if_pos rfl]
    · have hk : ¬(k = v) := by
        intro he
        subst he
        exact (List.nodup_cons.mp hnd).1 hm'
      cases hg : envGet sub k with
      | none =>
        rw [mergeStep_none sub _ k hg]
        exact ih sub env toRev v d (List.nodup_cons.mp hnd).2 hm' hd
      | some value =>
        rw [mergeStep_some sub _ k value hg,
          ih sub _ _ v d (List.nodup_cons.mp hnd).2 hm' hd,
          envGet_envDefine, if_neg hk]

/-- Membership in the fix-up list after a merge. -/
theorem mergeFold_toRev_mem :
    ∀ (ks : List String) (sub env : Env) (toRev : List String) (v : String),
      v ∈ (mergeFold sub ks env toRev).2 ↔
        v ∈ toRev ∨ (v ∈ ks ∧ (envGet sub v).isSome) := by
  intro ks
  induction ks with
  | nil => intro sub env toRev v; simp [mergeFold]
  | cons k ks' ih =>
    intro sub env toRev v
    rw [mergeFold_cons]
    cases hg : envGet sub k with
    | none =>
      rw [mergeStep_none sub _ k hg, ih]
      constructor
      · rintro (h | ⟨h1, h2⟩)
        · exact Or.inl h
        · exact Or.inr ⟨List.mem_cons_of_mem _ h1, h2⟩
      · rintro (h | ⟨h1, h2⟩)
        · exact Or.inl h
        · rcases List.mem_cons.mp h1 with rfl | h1'
          · rw [hg] at h2; simp at h2
          · exact Or.inr ⟨h1', h2⟩
    | some value =>
      rw [mergeStep_some sub _ k value hg, ih]
      constructor
      · rintro (h | ⟨h1, h2⟩)
        · rcases (mem_insertStr k toRev v).mp h with hveq | h'
          · exact Or.inr ⟨by rw [hveq]; exact List.mem_cons_self k ks',
              by rw [hveq, hg]; rfl⟩
          · exact Or.inl h'
        · exact Or.inr ⟨List.mem_cons_of_mem _ h1, h2⟩
      · rintro (h | ⟨h1, h2⟩)
        · exact Or.inl ((mem_insertStr k toRev v).mpr (Or.inr h))
        · rcases List.mem_cons.mp h1 with hveq | h1'
          · exact Or.inl ((mem_insertStr k toRev v).mpr (Or.inl hveq))
          · exact Or.inr ⟨h1', h2⟩

/-- The fix-up list stays duplicate-free through a merge. -/
theorem mergeFold_toRev_nodup :
    ∀ (ks : List String) (sub env : Env) (toRev : List String),
      toRev.Nodup → (mergeFold sub ks env toRev).2.Nodup := by
  intro ks
  induction ks with
  | nil => intro sub env toRev h; exact h
  | cons k ks' ih =>
    intro sub env toRev h
    rw [mergeFold_cons]
    cases hg : envGet sub k with
    | none => rw [mergeStep_none sub _ k hg]; exact ih sub env toRev h
    | some value =>
      rw [mergeStep_some sub _ k value hg]
      exact ih sub _ _ (nodup_insertStr _ _ h)

/-! ### Matcher shape lemmas -/

/-- Unfolding the matcher on a symbol pattern. -/
theorem mPH_symbol (s : String) (i : Datum) (kw : List String) (env : Env) :
    match_pattern_helper (.Symbol s) i kw env =
      if s ∈ kw then
        (match i with
         | .Symbol t => if s == t then some env else none
         | _ => none)
      else some (envDefine env s i) := by
  rw [match_pattern_helper.eq_def]

/-- Unfolding the matcher on a pair pattern. -/
theorem mPH_pair (pcar pcdr i : Datum) (kw : List String) (env : Env) :
    match_pattern_helper (.Pair pcar pcdr) i kw env =
      if ellipsisNext pcdr then
        matchEllipsis pcar i kw env false []
      else
        (match i with
         | .Pair icar icdr =>
           (match match_pattern_helper pcar icar kw env with
            | some env1 => match_pattern_helper pcdr icdr kw env1
            | none => none)
         | _ => none) := by
  rw [match_pattern_helper.eq_def]

/-- Unfolding the ellipsis loop on a list node. -/
theorem mE_cons (p element next : Datum) (kw : List String) (env : Env)
    (found : Bool) (toRev : List String) :
    matchEllipsis p (.Pair element next) kw env found toRev =
      match match_pattern_helper p element kw [] with
      | none => none
      | some subEnv =>
        matchEllipsis p next kw (mergeSub subEnv env toRev).1 true
          (mergeSub subEnv env toRev).2 := by
  rw [matchEllipsis]

/-- Unfolding the ellipsis loop at the end of the input list. -/
theorem mE_empty (p : Datum) (kw : List String) (env : Env) (found : Bool)
    (toRev : List String) :
    matchEllipsis p .EmptyList kw env found toRev =
      some (reverseVars (if found then env else add_empty_matching p kw env)
        toRev) := by
  rw [matchEllipsis]

/-! ### Variable-set lemmas -/

/-- Inversion of the `zero_or_more` test. -/
theorem ellipsisNext_true {d : Datum} (h : ellipsisNext d = true) :
    ∃ rest, d = .Pair (.Symbol "...") rest := by
  cases d with
  | Pair a rest =>
    cases a with
    | Symbol s =>
      refine ⟨rest, ?_⟩
      have : s = "..." := by simpa [ellipsisNext] using h
      rw [this]
    | _ => simp [ellipsisNext] at h
  | _ => simp [ellipsisNext] at h

/-- The pattern variables of a pair pattern. -/
theorem patternVars_pair (a b : Datum) (kw : List String) :
    patternVars (.Pair a b) kw = patternVars a kw ++ patternVars b kw := by
  simp [patternVars, symbolsOf, List.filter_append]

/-- The guaranteed-bound variables are non-keyword symbols of the
pattern. -/
theorem matchVars_subset :
    ∀ (p : Datum) (kw : List String) (v : String), v ∈ matchVars p kw →
      v ∈ symbolsOf p ∧ v ∉ kw := by
  intro p
  induction p with
  | Symbol s =>
    intro kw v h
    by_cases hk : s ∈ kw
    · simp [matchVars, hk] at h
    · simp [matchVars, hk] at h
      subst h
      exact ⟨by simp [symbolsOf], hk⟩
  | Pair car cdr ihcar ihcdr =>
    intro kw v h
    by_cases he : ellipsisNext cdr = true
    · simp only [matchVars, he, if_true] at h
      obtain ⟨h1, h2⟩ := ihcar kw v h
      exact ⟨by simp [symbolsOf, h1], h2⟩
    · simp only [matchVars, he, Bool.false_eq_true, if_false,
        List.mem_append] at h
      rcases h with h | h
      · obtain ⟨h1, h2⟩ := ihcar kw v h
        exact ⟨by simp [symbolsOf, h1], h2⟩
      · obtain ⟨h1, h2⟩ := ihcdr kw v h
        exact ⟨by simp [symbolsOf, h1], h2⟩
  | Vector r => intro kw v h; simp [matchVars] at h
  | Procedure k r => intro kw v h; simp [matchVars] at h
  | SyntaxRule r => intro kw v h; simp [matchVars] at h
  | Boolean b => intro kw v h; simp [matchVars] at h
  | Number m => intro kw v h; simp [matchVars] at h
  | Character c => intro kw v h; simp [matchVars] at h
  | String r => intro kw v h; simp [matchVars] at h
  | EmptyList => intro kw v h; simp [matchVars] at h
  | Ext r => intro kw v h; simp [matchVars] at h

/-- On verified patterns (every ellipsis at the end of its list), every
pattern variable is a guaranteed-bound variable of the matcher. -/
theorem patternVars_subset_matchVars :
    ∀ (p : Datum) (kw : List String) (v : String), ellipsisTailsEmpty p = true →
      v ∈ patternVars p kw → v ∈ matchVars p kw := by
  intro p
  induction p with
  | Symbol s =>
    intro kw v _ h
    simp only [patternVars, symbolsOf, List.filter_cons, List.filter_nil] at h
    by_cases hc : (decide ¬s ∈ kw && (s != "...")) = true
    · rw [if_pos hc] at h
      simp only [List.mem_singleton] at h
      subst h
      simp only [Bool.and_eq_true, decide_eq_true_eq, bne_iff_ne] at hc
      simp [matchVars, hc.1]
    · rw [if_neg hc] at h
      simp at h
  | Pair car cdr ihcar ihcdr =>
    intro kw v hte h
    rw [patternVars_pair, List.mem_append] at h
    by_cases he : ellipsisNext cdr = true
    · simp only [ellipsisTailsEmpty, he, if_true, Bool.and_eq_true,
        beq_iff_eq] at hte
      obtain ⟨rest, hrest⟩ := ellipsisNext_true he
      rcases h with h | h
      · simp only [matchVars, he, if_true]
        exact ihcar kw v hte.2 h
      · exfalso
        subst hrest
        have htail : rest = .EmptyList := by
          simpa [ellipsisTail] using hte.1
        subst htail
        simp [patternVars, symbolsOf] at h
    · simp only [ellipsisTailsEmpty, he, Bool.false_eq_true, if_false,
        Bool.and_eq_true] at hte
      simp only [matchVars, he, Bool.false_eq_true, if_false, List.mem_append]
      rcases h with h | h
      · exact Or.inl (ihcar kw v hte.1 h)
      · exact Or.inr (ihcdr kw v hte.2 h)
  | Vector r => intro kw v _ h; simp [patternVars, symbolsOf] at h
  | Procedure k r => intro kw v _ h; simp [patternVars, symbolsOf] at h
  | SyntaxRule r => intro kw v _ h; simp [patternVars, symbolsOf] at h
  | Boolean b => intro kw v _ h; simp [patternVars, symbolsOf] at h
  | Number m => intro kw v _ h; simp [patternVars, symbolsOf] at h
  | Character c => intro kw v _ h; simp [patternVars, symbolsOf] at h
  | String r => intro kw v _ h; simp [patternVars, symbolsOf] at h
  | EmptyList => intro kw v _ h; simp [patternVars, symbolsOf] at h
  | Ext r => intro kw v _ h; simp [patternVars, symbolsOf] at h

/-! ### `add_empty_matching` lemmas -/

/-- `add_empty_matching` preserves definedness. -/
theorem addEmpty_isSome :
    ∀ (p : Datum) (kw : List String) (env : Env) (v : String),
      (envGet env v).isSome →
      (envGet (add_empty_matching p kw env) v).isSome := by
  intro p
  induction p with
  | Symbol s =>
    intro kw env v h
    unfold add_empty_matching
    by_cases hk : s ∈ kw
    · rw [if_pos hk]; exact h
    · rw [if_neg hk, envGet_envDefine]
      by_cases hs : s = v
      · rw [if_pos hs]; rfl
      · rw [if_neg hs]; exact h
  | Pair car cdr ihcar ihcdr =>
    intro kw env v h
    exact ihcdr kw _ v (ihcar kw env v h)
  | Vector r => intro kw env v h; exact h
  | Procedure k r => intro kw env v h; exact h
  | SyntaxRule r => intro kw env v h; exact h
  | Boolean b => intro kw env v h; exact h
  | Number m => intro kw env v h; exact h
  | Character c => intro kw env v h; exact h
  | String r => intro kw env v h; exact h
  | EmptyList => intro kw env v h; exact h
  | Ext r => intro kw env v h; exact h

/-- A variable already bound to the empty list stays so through
`add_empty_matching`. -/
theorem addEmpty_preserve :
    ∀ (p : Datum) (kw : List String) (env : Env) (v : String),
      envGet env v = some .EmptyList →
      envGet (add_empty_matching p kw env) v = some .EmptyList := by
  intro p
  induction p with
  | Symbol s =>
    intro kw env v h
    unfold add_empty_matching
    by_cases hk : s ∈ kw
    · rw [if_pos hk]; exact h
    · rw [if_neg hk, envGet_envDefine]
      by_cases hs : s = v
      · rw [if_pos hs]
      · rw [if_neg hs]; exact h
  | Pair car cdr ihcar ihcdr =>
    intro kw env v h
    exact ihcdr kw _ v (ihcar kw env v h)
  | Vector r => intro kw env v h; exact h
  | Procedure k r => intro kw env v h; exact h
  | SyntaxRule r => intro kw env v h; exact h
  | Boolean b => intro kw env v h; exact h
  | Number m => intro kw env v h; exact h
  | Character c => intro kw env v h; exact h
  | String r => intro kw env v h; exact h
  | EmptyList => intro kw env v h; exact h
  | Ext r => intro kw env v h; exact h

/-- `add_empty_matching` binds every non-keyword symbol of the pattern to
the empty list. -/
theorem addEmpty_get_mem :
    ∀ (p : Datum) (kw : List String) (env : Env) (v : String),
      v ∈ symbolsOf p → v ∉ kw →
      envGet (add_empty_matching p kw env) v = some .EmptyList := by
  intro p
  induction p with
  | Symbol s =>
    intro kw env v hmem hk
    simp only [symbolsOf, List.mem_singleton] at hmem
    subst hmem
    unfold add_empty_matching
    rw [if_neg hk, envGet_envDefine, if_pos rfl]
  | Pair car cdr ihcar ihcdr =>
    intro kw env v hmem hk
    simp only [symbolsOf, List.mem_append] at hmem
    unfold add_empty_matching
    rcases hmem with h | h
    · exact addEmpty_preserve cdr kw _ v (ihcar kw env v h hk)
    · exact ihcdr kw _ v h hk
  | Vector r => intro kw env v h _; simp [symbolsOf] at h
  | Procedure k r => intro kw env v h _; simp [symbolsOf] at h
  | SyntaxRule r => intro kw env v h _; simp [symbolsOf] at h
  | Boolean b => intro kw env v h _; simp [symbolsOf] at h
  | Number m => intro kw env v h _; simp [symbolsOf] at h
  | Character c => intro kw env v h _; simp [symbolsOf] at h
  | String r => intro kw env v h _; simp [symbolsOf] at h
  | EmptyList => intro kw env v h _; simp [symbolsOf] at h
  | Ext r => intro kw env v h _; simp [symbolsOf] at h

/-! ### Capture-stack lemmas -/

/-- Pushing one capture onto the stack. -/
theorem stackOf_push (l : List Datum) (c : Datum) :
    stackOf (l ++ [c]) = .Pair c (stackOf l) := by
  simp [stackOf, List.foldl_append]

/-- The reversed accumulation is the list of captures in reverse order. -/
theorem stackOf_eq_list (l : List Datum) :
    stackOf l = Datum.list l.reverse := by
  induction l using List.reverseRecOn with
  | nil => rfl
  | append_singleton l c ih =>
    rw [stackOf_push, ih, List.reverse_append]
    simp [Datum.list]

/-- Unreversing the accumulated stack recovers the captures in input
order. -/
theorem stackOf_reverse (l : List Datum) :
    (stackOf l).reverse = Datum.list l := by
  rw [stackOf_eq_list, Datum.reverse, as_vec_list]
  simp

/-- The merged capture of a variable in terms of the sub-match. -/
theorem captureOf_eq {p e : Datum} {kw : List String} {se : Env} {v : String}
    {d : Datum} (h1 : match_pattern_helper p e kw [] = some se)
    (h2 : envGet se v = some d) : captureOf p kw v e = d := by
  unfold captureOf
  rw [h1, Option.some_bind, h2]
  rfl

/-- Matching an atom pattern (neither symbol, pair, vector, procedure nor
syntax rule) is equality. -/
theorem mPH_atom (p i : Datum) (kw : List String) (env : Env)
    (h1 : ∀ s, p ≠ .Symbol s) (h2 : ∀ a b, p ≠ .Pair a b)
    (h3 : ∀ r, p ≠ .Vector r) (h4 : ∀ k r, p ≠ .Procedure k r)
    (h5 : ∀ r, p ≠ .SyntaxRule r) :
    match_pattern_helper p i kw env = if p == i then some env else none := by
  cases p with
  | Symbol s => exact absurd rfl (h1 s)
  | Pair a b => exact absurd rfl (h2 a b)
  | Vector r => exact absurd rfl (h3 r)
  | Procedure k r => exact absurd rfl (h4 k r)
  | SyntaxRule r => exact absurd rfl (h5 r)
  | Boolean b => rw [match_pattern_helper.eq_def]
  | Number m => rw [match_pattern_helper.eq_def]
  | Character c => rw [match_pattern_helper.eq_def]
  | String r => rw [match_pattern_helper.eq_def]
  | EmptyList => rw [match_pattern_helper.eq_def]
  | Ext r => rw [match_pattern_helper.eq_def]

/-- The ellipsis case of a pair pattern. -/
theorem mPH_pair_ell (pcar pcdr i : Datum) (kw : List String) (env : Env)
    (he : ellipsisNext pcdr = true) :
    match_pattern_helper (.Pair pcar pcdr) i kw env =
      matchEllipsis pcar i kw env false [] := by
  rw [mPH_pair, if_pos he]

/-- The element-wise case of a pair pattern as an `Option.bind`. -/
theorem mPH_pair_std (pcar pcdr icar icdr : Datum) (kw : List String)
    (env : Env) (he : ellipsisNext pcdr = false) :
    match_pattern_helper (.Pair pcar pcdr) (.Pair icar icdr) kw env =
      (match_pattern_helper pcar icar kw env).bind
        (fun env1 => match_pattern_helper pcdr icdr kw env1) := by
  rw [mPH_pair, if_neg (by rw [he]; exact Bool.false_ne_true)]
  show (match match_pattern_helper pcar icar kw env with
    | some env1 => match_pattern_helper pcdr icdr kw env1
    | none => none) = _
  cases match_pattern_helper pcar icar kw env <;> rfl

/-- The list node of the ellipsis loop as an `Option.bind`. -/
theorem mE_cons_bind (p element next : Datum) (kw : List String) (env : Env)
    (found : Bool) (toRev : List String) :
    matchEllipsis p (.Pair element next) kw env found toRev =
      (match_pattern_helper p element kw []).bind (fun subEnv =>
        matchEllipsis p next kw (mergeSub subEnv env toRev).1 true
          (mergeSub subEnv env toRev).2) := by
  rw [mE_cons]
  cases match_pattern_helper p element kw [] <;> rfl

/-- Destructing a successful `Option.bind`. -/
theorem option_bind_some {α β : Type} (o : Option α) (f : α → Option β)
    (b : β) (h : o.bind f = some b) : ∃ a, o = some a ∧ f a = some b := by
  cases o with
  | none => exact absurd h (by simp)
  | some a => exact ⟨a, rfl, h⟩

/-- Matching a keyword symbol pattern requires the identical symbol. -/
theorem mPH_keyword (s : String) (i : Datum) (kw : List String) (env : Env)
    (hk : s ∈ kw) :
    match_pattern_helper (.Symbol s) i kw env =
      if i == .Symbol s then some env else none := by
  rw [mPH_symbol, if_pos hk]
  cases i with
  | Symbol t =>
    show (if s == t then some env else none) = _
    have hbeq : (Datum.Symbol t == Datum.Symbol s) = (s == t) := by
      by_cases h : s = t
      · subst h; simp
      · have e1 : (s == t) = false := by
          rw [beq_eq_false_iff_ne]; exact h
        have e2 : (Datum.Symbol t == Datum.Symbol s) = false := by
          rw [beq_eq_false_iff_ne]
          intro he
          injection he with he2
          exact h he2.symm
        rw [e1, e2]
    rw [hbeq]
  | Boolean b => rfl
  | Number m => rfl
  | Character c => rfl
  | String r => rfl
  | EmptyList => rfl
  | Pair a b => rfl
  | Vector r => rfl
  | Procedure k r => rfl
  | SyntaxRule r => rfl
  | Ext r => rfl

/-- The ellipsis loop fails on a non-list terminator. -/
theorem mE_atom (p cur : Datum) (kw : List String) (env : Env) (found : Bool)
    (toRev : List String) (h1 : ∀ a b, cur ≠ .Pair a b)
    (h2 : cur ≠ .EmptyList) :
    matchEllipsis p cur kw env found toRev = none := by
  cases cur with
  | Pair a b => exact absurd rfl (h1 a b)
  | EmptyList => exact absurd rfl h2
  | Boolean b =>
    rw [matchEllipsis]
    · exact fun _ _ h => Datum.noConfusion h
    · exact fun h => Datum.noConfusion h
  | Number m =>
    rw [matchEllipsis]
    · exact fun _ _ h => Datum.noConfusion h
    · exact fun h => Datum.noConfusion h
  | Character c =>
    rw [matchEllipsis]
    · exact fun _ _ h => Datum.noConfusion h
    · exact fun h => Datum.noConfusion h
  | String r =>
    rw [matchEllipsis]
    · exact fun _ _ h => Datum.noConfusion h
    · exact fun h => Datum.noConfusion h
  | Symbol t =>
    rw [matchEllipsis]
    · exact fun _ _ h => Datum.noConfusion h
    · exact fun h => Datum.noConfusion h
  | Vector r =>
    rw [matchEllipsis]
    · exact fun _ _ h => Datum.noConfusion h
    · exact fun h => Datum.noConfusion h
  | Procedure k r =>
    rw [matchEllipsis]
    · exact fun _ _ h => Datum.noConfusion h
    · exact fun h => Datum.noConfusion h
  | SyntaxRule r =>
    rw [matchEllipsis]
    · exact fun _ _ h => Datum.noConfusion h
    · exact fun h => Datum.noConfusion h
  | Ext r =>
    rw [matchEllipsis]
    · exact fun _ _ h => Datum.noConfusion h
    · exact fun h => Datum.noConfusion h

/-- Monotonicity and binding guarantee of the matcher: a successful match
preserves definedness of every variable of the starting environment and
defines every guaranteed-bound variable of the pattern; the ellipsis loop
does the same provided the accumulated environment already binds those
variables once an element has been consumed. -/
theorem match_binds :
    ∀ (n : Nat) (p i : Datum), sizeOf p + sizeOf i ≤ n →
      ∀ (kw : List String) (env : Env),
      ((∀ env', match_pattern_helper p i kw env = some env' →
        (∀ v, (envGet env v).isSome → (envGet env' v).isSome) ∧
        (∀ v, v ∈ matchVars p kw → (envGet env' v).isSome)) ∧
       (∀ (found : Bool) (toRev : List String) (env' : Env),
        matchEllipsis p i kw env found toRev = some env' →
        (found = true → ∀ v, v ∈ matchVars p kw → (envGet env v).isSome) →
        (∀ v, (envGet env v).isSome → (envGet env' v).isSome) ∧
        (∀ v, v ∈ matchVars p kw → (envGet env' v).isSome))) := by
  intro n
  induction n using Nat.strong_induction_on with
  | _ n ih =>
  intro p i hsz kw env
  constructor
  · intro env' hmatch
    cases p
    case Symbol s =>
      by_cases hk : s ∈ kw
      · rw [mPH_keyword s i kw env hk] at hmatch
        split at hmatch
        next =>
          obtain rfl : env = env' := Option.some.inj hmatch
          refine ⟨fun v hv => hv, ?_⟩
          intro v hv
          simp [matchVars, hk] at hv
        next => exact absurd hmatch (by simp)
      · rw [mPH_symbol, if_neg hk] at hmatch
        obtain rfl : envDefine env s i = env' := Option.some.inj hmatch
        constructor
        · intro v hv
          rw [envGet_envDefine]
          by_cases hs : s = v
          · rw [if_pos hs]; rfl
          · rw [if_neg hs]; exact hv
        · intro v hv
          simp only [matchVars] at hv
          rw [if_neg hk, List.mem_singleton] at hv
          subst hv
          rw [envGet_envDefine, if_pos rfl]
          rfl
    case Pair pcar pcdr =>
      cases he : ellipsisNext pcdr with
      | true =>
        rw [mPH_pair_ell pcar pcdr i kw env he] at hmatch
        have hlt : sizeOf pcar + sizeOf i < n := by
          simp only [Datum.Pair.sizeOf_spec] at hsz
          omega
        obtain ⟨hmono, hbinds⟩ :=
          (ih _ hlt pcar i (le_refl _) kw env).2 false [] env' hmatch
            (by intro hf; exact (Bool.false_ne_true hf).elim)
        refine ⟨hmono, ?_⟩
        intro v hv
        simp only [matchVars, he, if_true] at hv
        exact hbinds v hv
      | false =>
        cases i with
        | Pair icar icdr =>
          rw [mPH_pair_std pcar pcdr icar icdr kw env he] at hmatch
          obtain ⟨env1, h1, h2⟩ := option_bind_some _ _ _ hmatch
          have hlt1 : sizeOf pcar + sizeOf icar < n := by
            simp only [Datum.Pair.sizeOf_spec] at hsz
            omega
          have hlt2 : sizeOf pcdr + sizeOf icdr < n := by
            simp only [Datum.Pair.sizeOf_spec] at hsz
            omega
          obtain ⟨m1, b1⟩ := (ih _ hlt1 pcar icar (le_refl _) kw env).1 env1 h1
          obtain ⟨m2, b2⟩ := (ih _ hlt2 pcdr icdr (le_refl _) kw env1).1 env' h2
          constructor
          · exact fun v hv => m2 v (m1 v hv)
          · intro v hv
            simp only [matchVars, he, Bool.false_eq_true, if_false,
              List.mem_append] at hv
            rcases hv with hv | hv
            · exact m2 v (b1 v hv)
            · exact b2 v hv
        | Symbol t =>
          rw [mPH_pair, if_neg (by rw [he]; exact Bool.false_ne_true)] at hmatch
          exact absurd hmatch (by simp)
        | Boolean b =>
          rw [mPH_pair, if_neg (by rw [he]; exact Bool.false_ne_true)] at hmatch
          exact absurd hmatch (by simp)
        | Number m =>
          rw [mPH_pair, if_neg (by rw [he]; exact Bool.false_ne_true)] at hmatch
          exact absurd hmatch (by simp)
        | Character c =>
          rw [mPH_pair, if_neg (by rw [he]; exact Bool.false_ne_true)] at hmatch
          exact absurd hmatch (by simp)
        | String r =>
          rw [mPH_pair, if_neg (by rw [he]; exact Bool.false_ne_true)] at hmatch
          exact absurd hmatch (by simp)
        | EmptyList =>
          rw [mPH_pair, if_neg (by rw [he]; exact Bool.false_ne_true)] at hmatch
          exact absurd hmatch (by simp)
        | Vector r =>
          rw [mPH_pair, if_neg (by rw [he]; exact Bool.false_ne_true)] at hmatch
          exact absurd hmatch (by simp)
        | Procedure k r =>
          rw [mPH_pair, if_neg (by rw [he]; exact Bool.false_ne_true)] at hmatch
          exact absurd hmatch (by simp)
        | SyntaxRule r =>
          rw [mPH_pair, if_neg (by rw [he]; exact Bool.false_ne_true)] at hmatch
          exact absurd hmatch (by simp)
        | Ext r =>
          rw [mPH_pair, if_neg (by rw [he]; exact Bool.false_ne_true)] at hmatch
          exact absurd hmatch (by simp)
    case Vector r =>
      rw [match_pattern_helper.eq_def] at hmatch
      simp at hmatch
    case Procedure k r =>
      rw [match_pattern_helper.eq_def] at hmatch
      simp at hmatch
    case SyntaxRule r =>
      rw [match_pattern_helper.eq_def] at hmatch
      simp at hmatch
    all_goals {
      rw [mPH_atom _ i kw env (fun a h => Datum.noConfusion h)
        (fun a b h => Datum.noConfusion h) (fun a h => Datum.noConfusion h)
        (fun a b h => Datum.noConfusion h) (fun a h => Datum.noConfusion h)] at hmatch
      split at hmatch
      next =>
        obtain rfl : env = env' := Option.some.inj hmatch
        exact ⟨fun v hv => hv, fun v hv => by simp [matchVars] at hv⟩
      next => exact absurd hmatch (by simp)
    }
  · intro found toRev env' hmatch hinv
    cases i
    case Pair element next =>
      rw [mE_cons_bind] at hmatch
      obtain ⟨subEnv, h1, h2⟩ := option_bind_some _ _ _ hmatch
      have hltA : sizeOf p + sizeOf element < n := by
        simp only [Datum.Pair.sizeOf_spec] at hsz
        omega
      have hltB : sizeOf p + sizeOf next < n := by
        simp only [Datum.Pair.sizeOf_spec] at hsz
        omega
      obtain ⟨msub, bsub⟩ := (ih _ hltA p element (le_refl _) kw []).1 subEnv h1
      have hmergedSome : ∀ v, (envGet env v).isSome →
          (envGet (mergeSub subEnv env toRev).1 v).isSome := by
        intro v hv
        unfold mergeSub
        exact mergeFold_isSome _ subEnv env toRev v hv
      have hmergedBinds : ∀ v, v ∈ matchVars p kw →
          (envGet (mergeSub subEnv env toRev).1 v).isSome := by
        intro v hv
        unfold mergeSub
        exact mergeFold_binds _ subEnv env toRev v
          ((envGet_isSome_iff_mem_keys subEnv v).mp (bsub v hv)) (bsub v hv)
      obtain ⟨mrec, brec⟩ :=
        (ih _ hltB p next (le_refl _) kw (mergeSub subEnv env toRev).1).2
          true (mergeSub subEnv env toRev).2 env' h2 (fun _ => hmergedBinds)
      exact ⟨fun v hv => mrec v (hmergedSome v hv), brec⟩
    case EmptyList =>
      rw [mE_empty] at hmatch
      obtain rfl :
          reverseVars (if found then env else add_empty_matching p kw env)
            toRev = env' := Option.some.inj hmatch
      constructor
      · intro v hv
        rw [reverseVars_isSome]
        cases found with
        | true => simpa using hv
        | false =>
          simp only [Bool.false_eq_true, if_false]
          exact addEmpty_isSome p kw env v hv
      · intro v hv
        rw [reverseVars_isSome]
        cases found with
        | true =>
          simp only [if_true]
          exact hinv rfl v hv
        | false =>
          simp only [Bool.false_eq_true, if_false]
          obtain ⟨hs, hk⟩ := matchVars_subset p kw v hv
          rw [addEmpty_get_mem p kw env v hs hk]
          rfl
    all_goals {
      rw [mE_atom p _ kw env found toRev (fun a b h => Datum.noConfusion h)
        (fun h => Datum.noConfusion h)] at hmatch
      exact absurd hmatch (by simp)
    }

/-- The ellipsis loop fails on any input that is not a proper list. -/
theorem mE_improper :
    ∀ (cur : Datum), isProperList cur = false →
      ∀ (p : Datum) (kw : List String) (env : Env) (found : Bool)
        (toRev : List String),
      matchEllipsis p cur kw env found toRev = none := by
  intro cur
  induction cur with
  | Pair e next ihe ihn =>
    intro hprop p kw env found toRev
    rw [mE_cons_bind]
    cases h1 : match_pattern_helper p e kw [] with
    | none => rfl
    | some subEnv =>
      rw [Option.some_bind]
      exact ihn (by simpa [isProperList] using hprop) p kw _ true _
  | EmptyList => intro hprop; simp [isProperList] at hprop
  | Boolean b =>
    intro _ p kw env found toRev
    exact mE_atom p _ kw env found toRev (fun _ _ h => Datum.noConfusion h)
      (fun h => Datum.noConfusion h)
  | Number m =>
    intro _ p kw env found toRev
    exact mE_atom p _ kw env found toRev (fun _ _ h => Datum.noConfusion h)
      (fun h => Datum.noConfusion h)
  | Character c =>
    intro _ p kw env found toRev
    exact mE_atom p _ kw env found toRev (fun _ _ h => Datum.noConfusion h)
      (fun h => Datum.noConfusion h)
  | String r =>
    intro _ p kw env found toRev
    exact mE_atom p _ kw env found toRev (fun _ _ h => Datum.noConfusion h)
      (fun h => Datum.noConfusion h)
  | Symbol t =>
    intro _ p kw env found toRev
    exact mE_atom p _ kw env found toRev (fun _ _ h => Datum.noConfusion h)
      (fun h => Datum.noConfusion h)
  | Vector r =>
    intro _ p kw env found toRev
    exact mE_atom p _ kw env found toRev (fun _ _ h => Datum.noConfusion h)
      (fun h => Datum.noConfusion h)
  | Procedure k r =>
    intro _ p kw env found toRev
    exact mE_atom p _ kw env found toRev (fun _ _ h => Datum.noConfusion h)
      (fun h => Datum.noConfusion h)
  | SyntaxRule r =>
    intro _ p kw env found toRev
    exact mE_atom p _ kw env found toRev (fun _ _ h => Datum.noConfusion h)
      (fun h => Datum.noConfusion h)
  | Ext r =>
    intro _ p kw env found toRev
    exact mE_atom p _ kw env found toRev (fun _ _ h => Datum.noConfusion h)
      (fun h => Datum.noConfusion h)

/-- The ellipsis loop fails when any list element fails to match the
sub-pattern. -/
theorem mE_fail :
    ∀ (es : List Datum) (p : Datum) (kw : List String),
      (∃ e ∈ es, match_pattern_helper p e kw [] = none) →
      ∀ (env : Env) (found : Bool) (toRev : List String),
      matchEllipsis p (Datum.list es) kw env found toRev = none := by
  intro es
  induction es with
  | nil =>
    intro p kw h
    simp at h
  | cons e es' ih =>
    intro p kw h env found toRev
    show matchEllipsis p (.Pair e (Datum.list es')) kw env found toRev = none
    rw [mE_cons_bind]
    cases h1 : match_pattern_helper p e kw [] with
    | none => rfl
    | some subEnv =>
      rw [Option.some_bind]
      rcases h with ⟨x, hx, hfail⟩
      rcases List.mem_cons.mp hx with rfl | hx2
      · rw [h1] at hfail
        exact absurd hfail (by simp)
      · exact ih p kw ⟨x, hx2, hfail⟩ _ true _

/-- The ellipsis loop succeeds when every list element matches the
sub-pattern. -/
theorem mE_succeeds :
    ∀ (es : List Datum) (p : Datum) (kw : List String),
      (∀ e ∈ es, (match_pattern_helper p e kw []).isSome) →
      ∀ (env : Env) (found : Bool) (toRev : List String),
      (matchEllipsis p (Datum.list es) kw env found toRev).isSome := by
  intro es
  induction es with
  | nil =>
    intro p kw _ env found toRev
    show (matchEllipsis p .EmptyList kw env found toRev).isSome
    rw [mE_empty]
    rfl
  | cons e es' ih =>
    intro p kw h env found toRev
    show (matchEllipsis p (.Pair e (Datum.list es')) kw env found toRev).isSome
    rw [mE_cons_bind]
    obtain ⟨subEnv, hsub⟩ :=
      Option.isSome_iff_exists.mp (h e (List.mem_cons_self e es'))
    rw [hsub, Option.some_bind]
    exact ih p kw (fun x hx => h x (List.mem_cons_of_mem _ hx)) _ true _

/-- The capture invariant of the ellipsis loop, for one guaranteed-bound
variable `v` of the sub-pattern: `cs` is the list of elements already
consumed, whose captures sit reversed in the accumulated environment; on
success the final environment binds `v` to the full capture list in input
order. -/
theorem mE_capture_inv :
    ∀ (es : List Datum) (p : Datum) (kw : List String) (v : String)
      (env : Env) (found : Bool) (toRev : List String) (cs : List Datum)
      (env' : Env),
      v ∈ matchVars p kw →
      matchEllipsis p (Datum.list es) kw env found toRev = some env' →
      (cs = [] → envGet env v = none) →
      (cs ≠ [] → envGet env v = some (stackOf (cs.map (captureOf p kw v)))) →
      found = !cs.isEmpty →
      (v ∈ toRev ↔ cs ≠ []) →
      toRev.Nodup →
      envGet env' v = some (Datum.list ((cs ++ es).map (captureOf p kw v))) := by
  intro es
  induction es with
  | nil =>
    intro p kw v env found toRev cs env' hv hmatch hnone hsome hfound htoRev
      hnodup
    rw [show Datum.list ([] : List Datum) = Datum.EmptyList from rfl,
      mE_empty] at hmatch
    obtain rfl := Option.some.inj hmatch
    by_cases hcs : cs = []
    · subst hcs
      have hf : found = false := by simpa using hfound
      subst hf
      simp only [Bool.false_eq_true, if_false]
      have hnotR : v ∉ toRev := fun hm => (htoRev.mp hm) rfl
      rw [reverseVars_get_notmem toRev _ v hnotR]
      obtain ⟨hs, hk⟩ := matchVars_subset p kw v hv
      rw [addEmpty_get_mem p kw env v hs hk]
      rfl
    · have hf : found = true := by
        rw [hfound]
        cases cs with
        | nil => exact absurd rfl hcs
        | cons a l => rfl
      subst hf
      rw [if_pos rfl]
      have hinR : v ∈ toRev := htoRev.mpr hcs
      rw [reverseVars_get_mem toRev env v hnodup hinR, hsome hcs]
      show some ((stackOf (cs.map (captureOf p kw v))).reverse) = _
      rw [stackOf_reverse]
      simp
  | cons e es' ih =>
    intro p kw v env found toRev cs env' hv hmatch hnone hsome hfound htoRev
      hnodup
    rw [show Datum.list (e :: es') = .Pair e (Datum.list es') from rfl,
      mE_cons_bind] at hmatch
    obtain ⟨subEnv, h1, h2⟩ := option_bind_some _ _ _ hmatch
    have hbindsub : (envGet subEnv v).isSome :=
      ((match_binds (sizeOf p + sizeOf e) p e (le_refl _) kw []).1 subEnv
        h1).2 v hv
    obtain ⟨d, hd⟩ := Option.isSome_iff_exists.mp hbindsub
    have hcap : captureOf p kw v e = d := captureOf_eq h1 hd
    have hks : v ∈ envKeys subEnv :=
      (envGet_isSome_iff_mem_keys subEnv v).mp hbindsub
    have hmerged : envGet (mergeSub subEnv env toRev).1 v =
        some (.Pair d ((envGet env v).getD .EmptyList)) := by
      unfold mergeSub
      exact mergeFold_get_mem (envKeys subEnv) subEnv env toRev v d
        (envKeys_nodup subEnv) hks hd
    have hstack : (envGet env v).getD .EmptyList =
        stackOf (cs.map (captureOf p kw v)) := by
      by_cases hcs : cs = []
      · subst hcs
        rw [hnone rfl]
        rfl
      · rw [hsome hcs]
        rfl
    have hmerged2 : envGet (mergeSub subEnv env toRev).1 v =
        some (stackOf ((cs ++ [e]).map (captureOf p kw v))) := by
      rw [hmerged, hstack, List.map_append, List.map_cons, List.map_nil,
        stackOf_push]
      simp [hcap]
    have htoRev2 : v ∈ (mergeSub subEnv env toRev).2 ↔ (cs ++ [e]) ≠ [] := by
      constructor
      · intro _
        simp
      · intro _
        unfold mergeSub
        rw [mergeFold_toRev_mem]
        exact Or.inr ⟨hks, hbindsub⟩
    have hnodup2 : (mergeSub subEnv env toRev).2.Nodup := by
      unfold mergeSub
      exact mergeFold_toRev_nodup _ subEnv env toRev hnodup
    have hrec := ih p kw v (mergeSub subEnv env toRev).1 true
      (mergeSub subEnv env toRev).2 (cs ++ [e]) env' hv h2
      (by intro hcon; simp at hcon)
      (fun _ => hmerged2)
      (by simp)
      htoRev2 hnodup2
    rw [hrec, List.append_assoc, List.singleton_append]

/-- C3: matching the ellipsis pattern `(p ...)` greedily consumes the
elements of the input list one by one against `p`: zero consumed elements
bind every pattern variable of `p` to `EmptyList`; a non-proper-list
input fails; a failing element fails the whole match; and when every
element matches, each pattern variable of a verified `p` is bound to its
captures in input order. -/
theorem c3_match_ellipsis :
    (∀ (p tail : Datum) (kw : List String),
      match_pattern (.Pair p (.Pair (.Symbol "...") tail)) .EmptyList kw =
        some (add_empty_matching p kw []) ∧
      (∀ v, v ∈ patternVars p kw →
        envGet (add_empty_matching p kw []) v = some .EmptyList)) ∧
    (∀ (p tail input : Datum) (kw : List String), vectorFree p = true →
      isProperList input = false →
      match_pattern (.Pair p (.Pair (.Symbol "...") tail)) input kw = none) ∧
    (∀ (p tail e : Datum) (es : List Datum) (kw : List String),
      vectorFree p = true → e ∈ es →
      match_pattern_helper p e kw [] = none →
      match_pattern (.Pair p (.Pair (.Symbol "...") tail)) (Datum.list es)
        kw = none) ∧
    (∀ (p tail : Datum) (es : List Datum) (kw : List String),
      ellipsisTailsEmpty p = true →
      (∀ e ∈ es, (match_pattern_helper p e kw []).isSome) →
      ∃ env', match_pattern (.Pair p (.Pair (.Symbol "...") tail))
          (Datum.list es) kw = some env' ∧
        ∀ v, v ∈ patternVars p kw →
          envGet env' v = some (Datum.list (es.map (captureOf p kw v)))) := by
  refine ⟨?_, ?_, ?_, ?_⟩
  · intro p tail kw
    constructor
    · unfold match_pattern
      rw [mPH_pair_ell _ _ _ _ _ (by simp [ellipsisNext]), mE_empty]
      rfl
    · intro v hvp
      unfold patternVars at hvp
      obtain ⟨h1, h2⟩ := List.mem_filter.mp hvp
      simp only [Bool.and_eq_true, decide_eq_true_eq] at h2
      exact addEmpty_get_mem p kw [] v h1 h2.1
  · intro p tail input kw _ hprop
    unfold match_pattern
    rw [mPH_pair_ell _ _ _ _ _ (by simp [ellipsisNext])]
    exact mE_improper input hprop p kw [] false []
  · intro p tail e es kw _ hmem hfail
    unfold match_pattern
    rw [mPH_pair_ell _ _ _ _ _ (by simp [ellipsisNext])]
    exact mE_fail es p kw ⟨e, hmem, hfail⟩ [] false []
  · intro p tail es kw hte hall
    obtain ⟨env', henv⟩ :=
      Option.isSome_iff_exists.mp (mE_succeeds es p kw hall [] false [])
    refine ⟨env', ?_, ?_⟩
    · unfold match_pattern
      rw [mPH_pair_ell _ _ _ _ _ (by simp [ellipsisNext])]
      exact henv
    · intro v hvp
      have hvm : v ∈ matchVars p kw :=
        patternVars_subset_matchVars p kw v hte hvp
      have hinv := mE_capture_inv es p kw v [] false [] [] env' hvm henv
        (fun _ => rfl) (fun hc => absurd rfl hc) rfl
        ⟨fun h => absurd h (List.not_mem_nil v), fun h => absurd rfl h⟩
        List.nodup_nil
      simpa using hinv

/-- Witness for C3: `(x ...)` against `(1 2)` binds `x` to `(1 2)`;
`(5 ...)` against `(7)` fails; `(x ...)` against the improper list
`(1 . 2)` fails. -/
theorem c3_match_ellipsis_witness :
    (∃ env', match_pattern
        (.Pair (.Symbol "x") (.Pair (.Symbol "...") .EmptyList))
        (Datum.list [.Number 1, .Number 2]) [] = some env' ∧
      envGet env' "x" = some (Datum.list [.Number 1, .Number 2])) ∧
    match_pattern (.Pair (.Number 5) (.Pair (.Symbol "...") .EmptyList))
      (Datum.list [.Number 7]) [] = none ∧
    match_pattern (.Pair (.Symbol "x") (.Pair (.Symbol "...") .EmptyList))
      (.Pair (.Number 1) (.Number 2)) [] = none := by
  refine ⟨?_, ?_, ?_⟩
  · obtain ⟨env', h1, h2⟩ := c3_match_ellipsis.2.2.2 (.Symbol "x") .EmptyList
      [.Number 1, .Number 2] [] rfl
      (by
        intro e he
        rw [mPH_symbol, if_neg (by simp)]
        rfl)
    refine ⟨env', h1, ?_⟩
    have hx := h2 "x" (by decide)
    have hse1 : match_pattern_helper (.Symbol "x") (.Number 1) [] [] =
        some (envDefine [] "x" (.Number 1)) := by
      rw [mPH_symbol, if_neg (by simp)]
    have hse2 : match_pattern_helper (.Symbol "x") (.Number 2) [] [] =
        some (envDefine [] "x" (.Number 2)) := by
      rw [mPH_symbol, if_neg (by simp)]
    have hc1 : captureOf (.Symbol "x") [] "x" (.Number 1) = .Number 1 :=
      captureOf_eq hse1 rfl
    have hc2 : captureOf (.Symbol "x") [] "x" (.Number 2) = .Number 2 :=
      captureOf_eq hse2 rfl
    rw [hx, List.map_cons, List.map_cons, List.map_nil, hc1, hc2]
  · exact c3_match_ellipsis.2.2.1 (.Number 5) .EmptyList (.Number 7)
      [.Number 7] [] rfl (List.mem_singleton.mpr rfl)
      (by
        rw [mPH_atom _ _ _ _ (fun a h => Datum.noConfusion h)
          (fun a b h => Datum.noConfusion h) (fun a h => Datum.noConfusion h)
          (fun a b h => Datum.noConfusion h) (fun a h => Datum.noConfusion h)]
        rfl)
  · exact c3_match_ellipsis.2.1 (.Symbol "x") .EmptyList
      (.Pair (.Number 1) (.Number 2)) [] rfl rfl

end Resin
